import Mathlib

/-!
Uncertainty expansion of BVH bounds (`fcl/BVH/BVH_utility.h`).

A shallow embedding of the three `BVHExpand` overloads of `BVH_utility.h`
(generic bound kind, `OBB`, `RSS`) together with the properties of them that
the specification states.

Modelling conventions.

* `Scalar` is the template parameter of the source.  The overloads are
  embedded over an arbitrary type `S` with the operations `+`, `-` and `*`
  they use.  `F64` instantiates `S` with the finite values of `double` and
  correctly rounded operations; the properties that rest on the laws of
  arithmetic are stated for an ordered commutative ring, that is for exact
  arithmetic (`ℤ`, `ℚ` and `ℝ` are instances).
* The fields of type `int` (`first_primitive`, `num_primitives`) are
  integers; the counters of the `for` loops, which start at `0` and only count
  upwards, are natural numbers.  Every value the source computes in `int`
  arithmetic (`first_primitive + j`, `num_primitives * 6`, `6 * j + 2 * k`,
  `6 * j + 2 * k + 1`) is checked against the range of a 32-bit `int`: a
  signed overflow makes the embedded function return `none`.
* Raw arrays (`model.vertices`, `ucs`, the node array, the working buffer
  `vs`) are lists.  A read or write outside of the list, a read of a buffer
  cell that was never written and an allocation of negative size make the
  embedded function return `none`.
* Types that the header only includes (`Vector3`, `Matrix3`, `Variance3`,
  `BVNode`, `BVHModel`, `AABB`) are modelled from the specification, with
  the field names the source uses.  The fitting routine `fit` and the types
  `OBB` and `RSS` are parameters.
* A call site that may omit the confidence passes an optional argument; a call
  that omits an argument without default in the declaration is ill-formed.
-/

namespace fcl

/-! ## Data model -/

/-- Modelled from the spec: the type `Vector3<Scalar>` (a 3D point), which the
header only includes. -/
structure Vector3 (S : Type) where
  x : S
  y : S
  z : S
deriving DecidableEq

namespace Vector3

variable {S : Type} [Add S] [Sub S] [Mul S] [Min S] [Max S]

/-- Vector sum, `a + b`. -/
def add (a b : Vector3 S) : Vector3 S := ⟨a.x + b.x, a.y + b.y, a.z + b.z⟩

/-- Vector difference, `a - b`. -/
def sub (a b : Vector3 S) : Vector3 S := ⟨a.x - b.x, a.y - b.y, a.z - b.z⟩

/-- Product of a vector with a scalar on the right, `a * c`. -/
def scale (a : Vector3 S) (c : S) : Vector3 S := ⟨a.x * c, a.y * c, a.z * c⟩

/-- Coefficient access `a[k]`; defined for `k < 3` only. -/
def coeff (a : Vector3 S) : Nat → Option S
  | 0 => some a.x
  | 1 => some a.y
  | 2 => some a.z
  | _ => none

/-- Coefficient-wise minimum, `a.cwiseMin(b)`. -/
def cwiseMin (a b : Vector3 S) : Vector3 S := ⟨min a.x b.x, min a.y b.y, min a.z b.z⟩

/-- Coefficient-wise maximum, `a.cwiseMax(b)`. -/
def cwiseMax (a b : Vector3 S) : Vector3 S := ⟨max a.x b.x, max a.y b.y, max a.z b.z⟩

end Vector3

/-- Modelled from the spec: the type `Matrix3<Scalar>`, which the header only
includes; stored by its three columns. -/
structure Matrix3 (S : Type) where
  c0 : Vector3 S
  c1 : Vector3 S
  c2 : Vector3 S
deriving DecidableEq

/-- Column access `m.col(k)`; defined for `k < 3` only. -/
def Matrix3.col {S : Type} (m : Matrix3 S) : Nat → Option (Vector3 S)
  | 0 => some m.c0
  | 1 => some m.c1
  | 2 => some m.c2
  | _ => none

/-- Modelled from the spec: the type `Variance3<Scalar>` of
`fcl/math/variance3.h` (the per-vertex uncertainty model: an axis frame and one
standard deviation per axis), restricted to the two fields `BVHExpand` reads. -/
structure Variance3 (S : Type) where
  axis : Matrix3 S
  sigma : Vector3 S
deriving DecidableEq

/-- Modelled from the spec: the type `BVNode<BV>` of `fcl/BVH/BVH_model.h`
(a node owns the half-open vertex range
`[first_primitive, first_primitive + num_primitives)` and a bound `bv`). -/
structure BVNode (BV : Type) where
  first_primitive : Int
  num_primitives : Int
  bv : BV
deriving DecidableEq

/-- Modelled from the spec: the type `BVHModel<BV>` of `fcl/BVH/BVH_model.h`
(a tree is a sequence of nodes over a shared vertex array). -/
structure BVHModel (S BV : Type) where
  vertices : List (Vector3 S)
  bvs : List (BVNode BV)
deriving DecidableEq

/-- The node count `model.num_bvs`, also returned by `model.getNumBVs()`. -/
def BVHModel.num_bvs {S BV : Type} (model : BVHModel S BV) : Int := model.bvs.length

/-- The node accessor `model.getBV(i)`. -/
def BVHModel.getBV {S BV : Type} (model : BVHModel S BV) (i : Nat) : Option (BVNode BV) :=
  model.bvs[i]?

/-- The capabilities the generic `BVHExpand<BV>` needs of its bound kind: the
default constructor (`BV bv;`) and the inclusion of a point (`bv += p`). -/
structure PointBV (S BV : Type) where
  init : BV
  incl : BV → Vector3 S → BV

/-- The capabilities the `OBB` and `RSS` overloads need of their bound kind:
the default constructor and the external routine `fit(ps, n, bv)`, which
receives the buffer, the point count and the bound to overwrite. -/
structure FitBV (S BV : Type) where
  init : BV
  fit : List (Vector3 S) → Int → BV → BV

/-! ## Memory access and loops -/

/-- The largest value of a C++ `int` (32 bits). -/
def INT_MAX : Int := 2147483647

/-- The smallest value of a C++ `int` (32 bits). -/
def INT_MIN : Int := -2147483648

/-- The value of an expression of type `int` whose exact value is `x`: a result
outside of the range of `int` is a signed overflow, which is undefined. -/
def asInt (x : Int) : Option Int :=
  if INT_MIN ≤ x ∧ x ≤ INT_MAX then some x else none

/-- Read of `xs[i]` through a raw pointer with a C++ `int` index. -/
def readAt {α : Type} (xs : List α) (i : Int) : Option α :=
  if 0 ≤ i then xs[i.toNat]? else none

/-- Allocation `new T[n]`: `n` cells holding no value yet; a negative size
fails. -/
def newArray {α : Type} (n : Int) : Option (List (Option α)) :=
  if 0 ≤ n then some (List.replicate n.toNat none) else none

/-- Assignment `vs[i] = p` into a working buffer. -/
def writeAt {α : Type} (vs : List (Option α)) (i : Nat) (p : α) : Option (List (Option α)) :=
  if i < vs.length then some (vs.set i (some p)) else none

/-- Assignment `vs[i] = p` into a working buffer, where the index is an
expression of type `int` with the exact value `i`. -/
def writeAtInt {α : Type} (vs : List (Option α)) (i : Int) (p : α) :
    Option (List (Option α)) :=
  (asInt i).bind fun i1 => if 0 ≤ i1 then writeAt vs i1.toNat p else none

/-- Hand a buffer over to a reader: every cell must have been written. -/
def readAll {α : Type} : List (Option α) → Option (List α)
  | [] => some []
  | none :: _ => none
  | some a :: rest => (readAll rest).map (fun l => a :: l)

/-- The loop `for(int i = start; i < start + count; ++i) state = body(i, state)`. -/
def forLoop {σ : Type} (body : Nat → σ → Option σ) : Nat → Nat → σ → Option σ
  | _, 0, s => some s
  | start, count + 1, s => (body start s).bind (forLoop body (start + 1) count)

/-! ## The three `BVHExpand` overloads -/

section Expand

variable {S BV : Type} [Add S] [Sub S] [Mul S]

/-- The body of the loop over `k` of the generic overload (lines 96-97). -/
def expandAxis (K : PointBV S BV) (v : Vector3 S) (uc : Variance3 S) (r : S)
    (k : Nat) (bv : BV) : Option BV :=
  (uc.axis.col k).bind fun a =>
  (uc.sigma.coeff k).bind fun s =>
  some (K.incl (K.incl bv (v.add (a.scale (r * s)))) (v.sub (a.scale (r * s))))

/-- The body of the loop over `j` of the generic overload (lines 89-98). -/
def expandVertex (K : PointBV S BV) (vertices : List (Vector3 S)) (ucs : List (Variance3 S))
    (r : S) (bvnode : BVNode BV) (j : Nat) (bv : BV) : Option BV :=
  (asInt (bvnode.first_primitive + j)).bind fun v_id =>
  (readAt ucs v_id).bind fun uc =>
  (asInt (bvnode.first_primitive + j)).bind fun i =>
  (readAt vertices i).bind fun v =>
  forLoop (expandAxis K v uc r) 0 3 bv

/-- The bound the generic overload computes for one node (lines 86-99). -/
def expandNode (K : PointBV S BV) (vertices : List (Vector3 S)) (ucs : List (Variance3 S))
    (r : S) (bvnode : BVNode BV) : Option BV :=
  forLoop (expandVertex K vertices ucs r bvnode) 0 bvnode.num_primitives.toNat K.init

/-- The body of the loop over `i` of the generic overload (lines 84-101). -/
def expandStep (K : PointBV S BV) (ucs : List (Variance3 S)) (r : S)
    (i : Nat) (model : BVHModel S BV) : Option (BVHModel S BV) :=
  (model.getBV i).bind fun bvnode =>
  (expandNode K model.vertices ucs r bvnode).bind fun bv =>
  some { model with bvs := model.bvs.set i { bvnode with bv := bv } }

/-- The generic overload `BVHExpand<BV>(model, ucs, r)` (lines 74-103). -/
def BVHExpand (K : PointBV S BV) (model : BVHModel S BV) (ucs : List (Variance3 S)) (r : S) :
    Option (BVHModel S BV) :=
  forLoop (expandStep K ucs r) 0 model.num_bvs.toNat model

/-- The body of the loop over `k` of the `OBB` overload (lines 127-128). -/
def fillAxisOBB (v : Vector3 S) (uc : Variance3 S) (r : S) (j : Nat)
    (k : Nat) (vs : List (Option (Vector3 S))) : Option (List (Option (Vector3 S))) :=
  (uc.axis.col k).bind fun a =>
  (uc.sigma.coeff k).bind fun s =>
  (writeAtInt vs (6 * j + 2 * k) (v.add (a.scale (r * s)))).bind fun vs1 =>
  writeAtInt vs1 (6 * j + 2 * k + 1) (v.sub (a.scale (r * s)))

/-- The body of the loop over `j` of the `OBB` overload (lines 120-129). -/
def fillVertexOBB (vertices : List (Vector3 S)) (ucs : List (Variance3 S))
    (r : S) (bvnode : BVNode BV) (j : Nat) (vs : List (Option (Vector3 S))) :
    Option (List (Option (Vector3 S))) :=
  (asInt (bvnode.first_primitive + j)).bind fun v_id =>
  (readAt ucs v_id).bind fun uc =>
  (asInt (bvnode.first_primitive + j)).bind fun i =>
  (readAt vertices i).bind fun v =>
  forLoop (fillAxisOBB v uc r j) 0 3 vs

/-- The buffer the `OBB` overload hands to `fit` for one node (lines 116-130). -/
def bufferOBB (vertices : List (Vector3 S)) (ucs : List (Variance3 S))
    (r : S) (bvnode : BVNode BV) : Option (List (Vector3 S)) :=
  (asInt (bvnode.num_primitives * 6)).bind fun size =>
  (newArray size).bind fun vs =>
  (forLoop (fillVertexOBB vertices ucs r bvnode) 0 bvnode.num_primitives.toNat vs).bind readAll

/-- The bound the `OBB` overload computes for one node (lines 116-135). -/
def fitNodeOBB (F : FitBV S BV) (vertices : List (Vector3 S)) (ucs : List (Variance3 S))
    (r : S) (bvnode : BVNode BV) : Option BV :=
  (bufferOBB vertices ucs r bvnode).bind fun vs =>
  (asInt (bvnode.num_primitives * 6)).bind fun n =>
  some (F.fit vs n F.init)

/-- The body of the loop over `i` of the `OBB` overload (lines 114-137). -/
def fitStepOBB (F : FitBV S BV) (ucs : List (Variance3 S)) (r : S)
    (i : Nat) (model : BVHModel S BV) : Option (BVHModel S BV) :=
  (model.getBV i).bind fun bvnode =>
  (fitNodeOBB F model.vertices ucs r bvnode).bind fun bv =>
  some { model with bvs := model.bvs.set i { bvnode with bv := bv } }

/-- The overload `BVHExpand(BVHModel<OBB<Scalar>>&, ucs, r)` (lines 106-139);
`BV` stands for `OBB<Scalar>` and `F.fit` for the `fit` routine of that type. -/
def BVHExpandOBB (F : FitBV S BV) (model : BVHModel S BV) (ucs : List (Variance3 S)) (r : S) :
    Option (BVHModel S BV) :=
  forLoop (fitStepOBB F ucs r) 0 model.num_bvs.toNat model

/-- The body of the loop over `k` of the `RSS` overload (lines 163-164). -/
def fillAxisRSS (v : Vector3 S) (uc : Variance3 S) (r : S) (j : Nat)
    (k : Nat) (vs : List (Option (Vector3 S))) : Option (List (Option (Vector3 S))) :=
  (uc.axis.col k).bind fun a =>
  (uc.sigma.coeff k).bind fun s =>
  (writeAtInt vs (6 * j + 2 * k) (v.add (a.scale (r * s)))).bind fun vs1 =>
  writeAtInt vs1 (6 * j + 2 * k + 1) (v.sub (a.scale (r * s)))

/-- The body of the loop over `j` of the `RSS` overload (lines 156-165). -/
def fillVertexRSS (vertices : List (Vector3 S)) (ucs : List (Variance3 S))
    (r : S) (bvnode : BVNode BV) (j : Nat) (vs : List (Option (Vector3 S))) :
    Option (List (Option (Vector3 S))) :=
  (asInt (bvnode.first_primitive + j)).bind fun v_id =>
  (readAt ucs v_id).bind fun uc =>
  (asInt (bvnode.first_primitive + j)).bind fun i =>
  (readAt vertices i).bind fun v =>
  forLoop (fillAxisRSS v uc r j) 0 3 vs

/-- The buffer the `RSS` overload hands to `fit` for one node (lines 152-166). -/
def bufferRSS (vertices : List (Vector3 S)) (ucs : List (Variance3 S))
    (r : S) (bvnode : BVNode BV) : Option (List (Vector3 S)) :=
  (asInt (bvnode.num_primitives * 6)).bind fun size =>
  (newArray size).bind fun vs =>
  (forLoop (fillVertexRSS vertices ucs r bvnode) 0 bvnode.num_primitives.toNat vs).bind readAll

/-- The bound the `RSS` overload computes for one node (lines 152-171). -/
def fitNodeRSS (F : FitBV S BV) (vertices : List (Vector3 S)) (ucs : List (Variance3 S))
    (r : S) (bvnode : BVNode BV) : Option BV :=
  (bufferRSS vertices ucs r bvnode).bind fun vs =>
  (asInt (bvnode.num_primitives * 6)).bind fun n =>
  some (F.fit vs n F.init)

/-- The body of the loop over `i` of the `RSS` overload (lines 150-173). -/
def fitStepRSS (F : FitBV S BV) (ucs : List (Variance3 S)) (r : S)
    (i : Nat) (model : BVHModel S BV) : Option (BVHModel S BV) :=
  (model.getBV i).bind fun bvnode =>
  (fitNodeRSS F model.vertices ucs r bvnode).bind fun bv =>
  some { model with bvs := model.bvs.set i { bvnode with bv := bv } }

/-- The overload `BVHExpand(BVHModel<RSS<Scalar>>&, ucs, r)` (lines 142-175);
`BV` stands for `RSS<Scalar>` and `F.fit` for the `fit` routine of that type. -/
def BVHExpandRSS (F : FitBV S BV) (model : BVHModel S BV) (ucs : List (Variance3 S)) (r : S) :
    Option (BVHModel S BV) :=
  forLoop (fitStepRSS F ucs r) 0 model.num_bvs.toNat model

end Expand

/-! ## The declarations and their default arguments -/

section Declarations

variable {S BV : Type} [Add S] [Sub S] [Mul S] [One S]

/-- The default argument for `r` in the declaration of the generic overload
(lines 49-53): the declaration gives none. -/
def defaultConfidence : Option S := none

/-- The default argument for `r` in the declaration of the `OBB` overload
(line 59), `Scalar r = 1.0`. -/
def defaultConfidenceOBB : Option S := some 1

/-- The default argument for `r` in the declaration of the `RSS` overload
(line 65), `Scalar r = 1.0`. -/
def defaultConfidenceRSS : Option S := some 1

/-- The value a call passes for a parameter: the argument the caller wrote,
else the default argument of the declaration.  A call that omits an argument
for which the declaration has no default is ill-formed (`none`). -/
def passedArg {α : Type} (dflt : Option α) : Option α → Option α
  | some a => some a
  | none => dflt

/-- A call `BVHExpand(model, ucs)` (`r = none`) or `BVHExpand(model, ucs, r)`
that resolves to the generic overload.  The outer `none` is an ill-formed call,
which does not compile; otherwise the value is the result of the run. -/
def callBVHExpand (K : PointBV S BV) (model : BVHModel S BV) (ucs : List (Variance3 S))
    (r : Option S) : Option (Option (BVHModel S BV)) :=
  (passedArg defaultConfidence r).map (BVHExpand K model ucs)

/-- A call `BVHExpand(model, ucs)` or `BVHExpand(model, ucs, r)` that resolves
to the `OBB` overload. -/
def callBVHExpandOBB (F : FitBV S BV) (model : BVHModel S BV) (ucs : List (Variance3 S))
    (r : Option S) : Option (Option (BVHModel S BV)) :=
  (passedArg defaultConfidenceOBB r).map (BVHExpandOBB F model ucs)

/-- A call `BVHExpand(model, ucs)` or `BVHExpand(model, ucs, r)` that resolves
to the `RSS` overload. -/
def callBVHExpandRSS (F : FitBV S BV) (model : BVHModel S BV) (ucs : List (Variance3 S))
    (r : Option S) : Option (Option (BVHModel S BV)) :=
  (passedArg defaultConfidenceRSS r).map (BVHExpandRSS F model ucs)

end Declarations

/-! ## The axis-aligned box kind -/

section Box

variable {S : Type} [Min S] [Max S] [LE S] [DecidableRel (fun a b : S => a ≤ b)]

/-- Modelled from the spec: the axis-aligned box `AABB<Scalar>`, the bound kind
the generic overload is used with.  The default-constructed box is empty;
including a point gives the smallest box that contains the previous box and the
point. -/
inductive AABB (S : Type) where
  | empty : AABB S
  | box (min_ max_ : Vector3 S) : AABB S
deriving DecidableEq

/-- Modelled from the spec: point inclusion `bv += p` of `AABB`. -/
def AABB.incl : AABB S → Vector3 S → AABB S
  | .empty, p => .box p p
  | .box lo hi, p => .box (lo.cwiseMin p) (hi.cwiseMax p)

/-- The capabilities of `AABB` that the generic overload uses. -/
def aabbKind : PointBV S (AABB S) := ⟨AABB.empty, AABB.incl⟩

/-- Modelled from the spec: `b.contain(p)`, the point `p` lies in the box `b`. -/
def AABB.contain : AABB S → Vector3 S → Prop
  | .empty, _ => False
  | .box lo hi, p =>
    (lo.x ≤ p.x ∧ p.x ≤ hi.x) ∧ (lo.y ≤ p.y ∧ p.y ≤ hi.y) ∧ (lo.z ≤ p.z ∧ p.z ≤ hi.z)

instance (b : AABB S) (p : Vector3 S) : Decidable (b.contain p) := by
  cases b <;> unfold AABB.contain <;> infer_instance

/-- Modelled from the spec: the box `outer` contains the box `inner`. -/
def AABB.containBox : AABB S → AABB S → Prop
  | _, .empty => True
  | .empty, .box _ _ => False
  | .box lo hi, .box lo1 hi1 =>
    (lo.x ≤ lo1.x ∧ hi1.x ≤ hi.x) ∧ (lo.y ≤ lo1.y ∧ hi1.y ≤ hi.y) ∧ (lo.z ≤ lo1.z ∧ hi1.z ≤ hi.z)

instance (b c : AABB S) : Decidable (b.containBox c) := by
  cases b <;> cases c <;> unfold AABB.containBox <;> infer_instance

end Box

/-! ## Scalars with binary64 rounding -/

section Binary64

/-- The finite values of the C++ type `double` (IEEE 754 binary64), the type
the template parameter `Scalar` is instantiated with in `BVHModel<OBB<double>>`
and the like: the value is `mant * 2 ^ exp`.  The operations return their result
in lowest terms (`mant` odd, or `mant = 0` and `exp = 0`), so equal values are
equal terms.  Results of magnitude `2 ^ 1024` or more, for which the format has
no finite value, and the sign of zero are outside this model. -/
structure F64 where
  mant : Int
  exp : Int
deriving DecidableEq

namespace F64

/-- The number of binary digits of `n`; `fuel` bounds the number of steps. -/
def bitLengthAux : Nat → Nat → Nat
  | 0, _ => 0
  | fuel + 1, n => if n = 0 then 0 else bitLengthAux fuel (n / 2) + 1

/-- The number of binary digits of `n`. -/
def bitLength (n : Nat) : Nat := bitLengthAux n n

/-- Lowest terms of `m * 2 ^ e`; `fuel` bounds the number of steps. -/
def reduceAux : Nat → Int → Int → F64
  | 0, m, e => ⟨m, e⟩
  | fuel + 1, m, e => if m % 2 = 0 then reduceAux fuel (m / 2) (e + 1) else ⟨m, e⟩

/-- Lowest terms of `m * 2 ^ e`. -/
def reduce (m e : Int) : F64 :=
  if m = 0 then ⟨0, 0⟩ else reduceAux m.natAbs m e

/-- The binary64 value nearest to the real number `m * 2 ^ e`, ties to the even
significand (the default rounding mode): the significand keeps 53 binary
digits, and no digit below `2 ^ (-1074)`. -/
def round (m e : Int) : F64 :=
  let q := max (e + bitLength m.natAbs - 53) (-1074)
  if q ≤ e then reduce m e
  else
    let d := 2 ^ (q - e).toNat
    let quo := m.natAbs / d
    let rem := m.natAbs % d
    let up := d < 2 * rem ∨ (d = 2 * rem ∧ quo % 2 = 1)
    let n : Int := if up then quo + 1 else quo
    reduce (if m < 0 then -n else n) q

/-- The integer `k` with `a = k * 2 ^ (min a.exp b.exp)`. -/
def aligned (a b : F64) : Int := a.mant * 2 ^ (a.exp - min a.exp b.exp).toNat

instance : Zero F64 := ⟨⟨0, 0⟩⟩

instance : One F64 := ⟨⟨1, 0⟩⟩

instance : Add F64 := ⟨fun a b => round (aligned a b + aligned b a) (min a.exp b.exp)⟩

instance : Sub F64 := ⟨fun a b => round (aligned a b - aligned b a) (min a.exp b.exp)⟩

instance : Mul F64 := ⟨fun a b => round (a.mant * b.mant) (a.exp + b.exp)⟩

instance : LE F64 := ⟨fun a b => aligned a b ≤ aligned b a⟩

instance : DecidableRel (fun a b : F64 => a ≤ b) :=
  fun a b => inferInstanceAs (Decidable (aligned a b ≤ aligned b a))

instance : Min F64 := ⟨fun a b => if b ≤ a then b else a⟩

instance : Max F64 := ⟨fun a b => if a ≤ b then b else a⟩

/-- The value of the literal `0.1`: `3602879701896397 * 2 ^ (-55)`. -/
def tenth : F64 := ⟨3602879701896397, -55⟩

end F64

end Binary64

/-! ## The specification's description of the result -/

section Spec

variable {S BV : Type} [Add S] [Sub S] [Mul S] [Zero S] [One S]

/-- The six extremal points of section 4.1 of the specification: for each axis
`k` the points `v + axis_k * (r * sigma_k)` and `v - axis_k * (r * sigma_k)`. -/
def extremalPoints (v : Vector3 S) (u : Variance3 S) (r : S) : List (Vector3 S) :=
  [v.add (u.axis.c0.scale (r * u.sigma.x)), v.sub (u.axis.c0.scale (r * u.sigma.x)),
   v.add (u.axis.c1.scale (r * u.sigma.y)), v.sub (u.axis.c1.scale (r * u.sigma.y)),
   v.add (u.axis.c2.scale (r * u.sigma.z)), v.sub (u.axis.c2.scale (r * u.sigma.z))]

/-- The identity matrix, `Matrix3<Scalar>::Identity()`. -/
def Matrix3.identity : Matrix3 S := ⟨⟨1, 0, 0⟩, ⟨0, 1, 0⟩, ⟨0, 0, 1⟩⟩

/-- Dot product of two vectors. -/
def Vector3.dot (a b : Vector3 S) : S := a.x * b.x + a.y * b.y + a.z * b.z

/-- The columns of the matrix are unit vectors and mutually orthogonal
(the invariant section 3 of the specification assumes of an axis frame). -/
def Matrix3.orthonormal (m : Matrix3 S) : Prop :=
  (m.c0.dot m.c0 = 1 ∧ m.c1.dot m.c1 = 1 ∧ m.c2.dot m.c2 = 1)
    ∧ (m.c0.dot m.c1 = 0 ∧ m.c0.dot m.c2 = 0 ∧ m.c1.dot m.c2 = 0)

/-- The point `v + sum_k c_k * (r * sigma_k) * axis_k` of the error ellipsoid
(or of any other region around `v`) with coefficients `c0, c1, c2` in the axis
frame of the uncertainty model. -/
def ellipsoidPoint (v : Vector3 S) (u : Variance3 S) (r c0 c1 c2 : S) : Vector3 S :=
  v.add (((u.axis.c0.scale (c0 * (r * u.sigma.x))).add (u.axis.c1.scale (c1 * (r * u.sigma.y)))).add
    (u.axis.c2.scale (c2 * (r * u.sigma.z))))

/-- Collect `f start, f (start + 1), ..., f (start + count - 1)`, failing when
one of them fails. -/
def gather {β : Type} (f : Nat → Option β) : Nat → Nat → Option (List β)
  | _, 0 => some []
  | start, count + 1 => (f start).bind fun b => (gather f (start + 1) count).map (fun l => b :: l)

/-- The vertex and the uncertainty model at position `j` of a node's owned
range. -/
def ownedAt (vertices : List (Vector3 S)) (ucs : List (Variance3 S)) (bvnode : BVNode BV)
    (j : Nat) : Option (Vector3 S × Variance3 S) :=
  (asInt (bvnode.first_primitive + j)).bind fun v_id =>
  (readAt ucs v_id).bind fun uc =>
  (readAt vertices v_id).bind fun v => some (v, uc)

/-- The vertices a node owns, each with its uncertainty model, in index order. -/
def owned (vertices : List (Vector3 S)) (ucs : List (Variance3 S)) (bvnode : BVNode BV) :
    Option (List (Vector3 S × Variance3 S)) :=
  gather (ownedAt vertices ucs bvnode) 0 bvnode.num_primitives.toNat

/-- The vertices a node owns, in index order. -/
def ownedVertices (vertices : List (Vector3 S)) (bvnode : BVNode BV) : Option (List (Vector3 S)) :=
  gather (fun j => readAt vertices (bvnode.first_primitive + j)) 0 bvnode.num_primitives.toNat

/-- The two assignments of the loop body over `k` of the `OBB` and `RSS`
overloads, with the indices `6 * j + 2 * k` and `6 * j + 2 * k + 1` taken as
positions of the buffer. -/
def fillAxisAt (v : Vector3 S) (uc : Variance3 S) (r : S) (j : Nat)
    (k : Nat) (vs : List (Option (Vector3 S))) : Option (List (Option (Vector3 S))) :=
  (uc.axis.col k).bind fun a =>
  (uc.sigma.coeff k).bind fun s =>
  (writeAt vs (6 * j + 2 * k) (v.add (a.scale (r * s)))).bind fun vs1 =>
  writeAt vs1 (6 * j + 2 * k + 1) (v.sub (a.scale (r * s)))

/-- The extremal points of a list of vertices, vertex after vertex. -/
def pointsOf (r : S) : List (Vector3 S × Variance3 S) → List (Vector3 S)
  | [] => []
  | vu :: rest => extremalPoints vu.1 vu.2 r ++ pointsOf r rest

/-- Apply `f` to every element of a list, failing when one application fails. -/
def traverse {α β : Type} (f : α → Option β) : List α → Option (List β)
  | [] => some []
  | a :: l => (f a).bind fun b => (traverse f l).map (fun l1 => b :: l1)

/-- A node with its bound replaced by the one `g` computes for it. -/
def rebound (g : BVNode BV → Option BV) (bvnode : BVNode BV) : Option (BVNode BV) :=
  (g bvnode).map fun bv => { bvnode with bv := bv }

/-- The owned range of a node. -/
def BVNode.range (bvnode : BVNode BV) : Int × Int :=
  (bvnode.first_primitive, bvnode.num_primitives)

/-- The vertex index `idx` lies in the owned range of the node. -/
def BVNode.owns (bvnode : BVNode BV) (idx : Int) : Prop :=
  bvnode.first_primitive ≤ idx ∧ idx < bvnode.first_primitive + bvnode.num_primitives

/-- The caller's precondition of section 6 of the specification on one node:
the owned range is a range of indices of the vertex array (of length
`nVertices`) and of the uncertainty array (of length `nUcs`). -/
def BVNode.inBounds (bvnode : BVNode BV) (nVertices nUcs : Nat) : Prop :=
  0 ≤ bvnode.first_primitive ∧ 0 ≤ bvnode.num_primitives
    ∧ bvnode.first_primitive + bvnode.num_primitives ≤ nVertices
    ∧ bvnode.first_primitive + bvnode.num_primitives ≤ nUcs

instance (bvnode : BVNode BV) (nVertices nUcs : Nat) :
    Decidable (bvnode.inBounds nVertices nUcs) := by
  unfold BVNode.inBounds; infer_instance

/-- Perform the assignments `vs[i] = p` for the pairs `(i, p)` of a list, one
after the other. -/
def writeSeq {α : Type} : List (Nat × α) → List (Option α) → Option (List (Option α))
  | [], vs => some vs
  | w :: ws, vs => (writeAt vs w.1 w.2).bind (writeSeq ws)

/-- Run a loop body once for every index of `order`, in the order of the list. -/
def forEach {σ : Type} (body : Nat → σ → Option σ) : List Nat → σ → Option σ
  | [], s => some s
  | i :: rest, s => (body i s).bind (forEach body rest)

end Spec

section SpecRing

variable {S BV : Type} [LinearOrderedCommRing S]

/-- Coordinate by coordinate, the largest of `|r * sigma_k * axis_k|` over the
three axes `k` of an uncertainty model. -/
def reach (u : Variance3 S) (r : S) : Vector3 S :=
  ⟨max (max |r * u.sigma.x * u.axis.c0.x| |r * u.sigma.y * u.axis.c1.x|)
      |r * u.sigma.z * u.axis.c2.x|,
   max (max |r * u.sigma.x * u.axis.c0.y| |r * u.sigma.y * u.axis.c1.y|)
      |r * u.sigma.z * u.axis.c2.y|,
   max (max |r * u.sigma.x * u.axis.c0.z| |r * u.sigma.y * u.axis.c1.z|)
      |r * u.sigma.z * u.axis.c2.z|⟩

/-- The vertex moved down by its reach on every coordinate. -/
def lowerOf (r : S) (vu : Vector3 S × Variance3 S) : Vector3 S := vu.1.sub (reach vu.2 r)

/-- The vertex moved up by its reach on every coordinate. -/
def upperOf (r : S) (vu : Vector3 S × Variance3 S) : Vector3 S := vu.1.add (reach vu.2 r)

/-- Coordinate-wise minimum of the points `lowerOf r vu`, starting from `lo`. -/
def minLower (r : S) (lo : Vector3 S) (l : List (Vector3 S × Variance3 S)) : Vector3 S :=
  l.foldl (fun acc vu => acc.cwiseMin (lowerOf r vu)) lo

/-- Coordinate-wise maximum of the points `upperOf r vu`, starting from `hi`. -/
def maxUpper (r : S) (hi : Vector3 S) (l : List (Vector3 S × Variance3 S)) : Vector3 S :=
  l.foldl (fun acc vu => acc.cwiseMax (upperOf r vu)) hi

end SpecRing

/-! ## Example inputs -/

section Examples

/-- An uncertainty model whose axis frame is orthonormal but not aligned with
the coordinate axes: it is turned about the `z` axis. -/
def tiltedUc : Variance3 ℚ := ⟨⟨⟨3 / 5, 4 / 5, 0⟩, ⟨-4 / 5, 3 / 5, 0⟩, ⟨0, 0, 1⟩⟩, ⟨1, 1, 1⟩⟩

/-- A tree of one node that owns one vertex at the origin. -/
def tiltedModel : BVHModel ℚ (AABB ℚ) := ⟨[⟨0, 0, 0⟩], [⟨0, 1, AABB.empty⟩]⟩

/-- The vertices of the sample tree. -/
def sampleVertices : List (Vector3 ℤ) := [⟨0, 0, 0⟩, ⟨4, 1, -2⟩]

/-- A sample tree of three nodes over two vertices, with the given bounds: the
first node owns both vertices, the second the first vertex and the third the
second vertex. -/
def sampleWith (b0 b1 b2 : AABB ℤ) : BVHModel ℤ (AABB ℤ) :=
  ⟨sampleVertices, [⟨0, 2, b0⟩, ⟨0, 1, b1⟩, ⟨1, 1, b2⟩]⟩

/-- The sample tree before any bound was computed. -/
def sampleModel : BVHModel ℤ (AABB ℤ) := sampleWith AABB.empty AABB.empty AABB.empty

/-- Uncertainty models of the two sample vertices: an isotropic one, and one
with permuted axes and unequal standard deviations. -/
def sampleUcs : List (Variance3 ℤ) :=
  [⟨Matrix3.identity, ⟨1, 1, 1⟩⟩, ⟨⟨⟨0, 1, 0⟩, ⟨1, 0, 0⟩, ⟨0, 0, 1⟩⟩, ⟨2, 0, 1⟩⟩]

/-- The sample uncertainty array with the entry of the first vertex changed. -/
def sampleUcsChanged : List (Variance3 ℤ) :=
  [⟨Matrix3.identity, ⟨5, 7, 9⟩⟩, ⟨⟨⟨0, 1, 0⟩, ⟨1, 0, 0⟩, ⟨0, 0, 1⟩⟩, ⟨2, 0, 1⟩⟩]

/-- A tree of one node that owns one vertex, `(1, 1, 1)`, with coordinates of
type `double`. -/
def roundedModel : BVHModel F64 (AABB F64) := ⟨[⟨1, 1, 1⟩], [⟨0, 1, AABB.empty⟩]⟩

/-- An isotropic uncertainty model for the vertex of `roundedModel`: identity
axes and the standard deviation 1 on every axis. -/
def roundedUcs : List (Variance3 F64) := [⟨Matrix3.identity, ⟨1, 1, 1⟩⟩]

/-- A tree over `n` vertices whose one node owns the last `m` of them: the
vertices with the indices `n - m`, ..., `n - 1`. -/
def tailModel (n m : Nat) : BVHModel ℤ (AABB ℤ) :=
  ⟨List.replicate n ⟨0, 0, 0⟩, [⟨(n : Int) - m, m, AABB.empty⟩]⟩

/-- One uncertainty model, with the coordinate axes and deviations 1, for each
of `n` vertices. -/
def unitUcs (n : Nat) : List (Variance3 ℤ) :=
  List.replicate n ⟨Matrix3.identity, ⟨1, 1, 1⟩⟩

/-- A sample `fit` routine: the smallest axis-aligned box of the first `n`
points. -/
def sampleFit : FitBV ℤ (AABB ℤ) :=
  ⟨AABB.empty, fun ps n _ => (ps.take n.toNat).foldl AABB.incl AABB.empty⟩

end Examples

/-! ## Structure of the loops -/

section Loops

variable {S BV : Type} [LinearOrderedCommRing S]

theorem asInt_of_range {x : Int} (h1 : INT_MIN ≤ x) (h2 : x ≤ INT_MAX) : asInt x = some x := by
  unfold asInt
  rw [if_pos ⟨h1, h2⟩]

theorem asInt_of_not_range {x : Int} (h : ¬ (INT_MIN ≤ x ∧ x ≤ INT_MAX)) : asInt x = none := by
  unfold asInt
  rw [if_neg h]

theorem asInt_eq_some {x y : Int} (h : asInt x = some y) :
    y = x ∧ INT_MIN ≤ x ∧ x ≤ INT_MAX := by
  unfold asInt at h
  split at h
  · rename_i hr
    exact ⟨(Option.some.inj h).symm, hr⟩
  · exact absurd h (by simp)

theorem writeAtInt_natCast {α : Type} (vs : List (Option α)) (n : Nat) (p : α)
    (h : (n : Int) ≤ INT_MAX) : writeAtInt vs (n : Int) p = writeAt vs n p := by
  unfold writeAtInt
  rw [asInt_of_range (by unfold INT_MIN; omega) h]
  simp

theorem forLoop_congr {σ : Type} (f g : Nat → σ → Option σ) (count start : Nat)
    (h : ∀ i, start ≤ i → i < start + count → f i = g i) (s : σ) :
    forLoop f start count s = forLoop g start count s := by
  induction count generalizing start s with
  | zero => rfl
  | succ n ih =>
    simp only [forLoop, h start (Nat.le_refl _) (by omega)]
    cases g start s with
    | none => rfl
    | some s1 => exact ih (start + 1) (fun i h1 h2 => h i (by omega) (by omega)) s1

theorem forLoop_expandAxis (K : PointBV S BV) (v : Vector3 S) (uc : Variance3 S) (r : S)
    (bv : BV) :
    forLoop (expandAxis K v uc r) 0 3 bv = some ((extremalPoints v uc r).foldl K.incl bv) := rfl

theorem foldl_pointsOf_cons (K : PointBV S BV) (r : S) (vu : Vector3 S × Variance3 S)
    (l : List (Vector3 S × Variance3 S)) (bv : BV) :
    (pointsOf r (vu :: l)).foldl K.incl bv
      = (pointsOf r l).foldl K.incl ((extremalPoints vu.1 vu.2 r).foldl K.incl bv) := by
  simp [pointsOf, List.foldl_append]

theorem expandVertex_eq (K : PointBV S BV) (vertices : List (Vector3 S))
    (ucs : List (Variance3 S)) (r : S) (bvnode : BVNode BV) (j : Nat) (bv : BV) :
    expandVertex K vertices ucs r bvnode j bv
      = (ownedAt vertices ucs bvnode j).bind fun vu =>
          some ((extremalPoints vu.1 vu.2 r).foldl K.incl bv) := by
  simp only [expandVertex, ownedAt]
  cases asInt (bvnode.first_primitive + j) with
  | none => rfl
  | some i =>
    simp only [Option.some_bind]
    cases readAt ucs i with
    | none => rfl
    | some uc =>
      cases readAt vertices i with
      | none => rfl
      | some v => rfl

theorem forLoop_expandVertex (K : PointBV S BV) (vertices : List (Vector3 S))
    (ucs : List (Variance3 S)) (r : S) (bvnode : BVNode BV) (count start : Nat) (bv : BV) :
    forLoop (expandVertex K vertices ucs r bvnode) start count bv
      = (gather (ownedAt vertices ucs bvnode) start count).map
          fun l => (pointsOf r l).foldl K.incl bv := by
  induction count generalizing start bv with
  | zero => rfl
  | succ n ih =>
    simp only [forLoop, gather, expandVertex_eq]
    cases ownedAt vertices ucs bvnode start with
    | none => rfl
    | some vu =>
      simp only [Option.some_bind, ih]
      cases gather (ownedAt vertices ucs bvnode) (start + 1) n with
      | none => rfl
      | some l => simp [foldl_pointsOf_cons]

/-- The generic overload folds the extremal points of the owned vertices, in
index order, into the default-constructed bound. -/
theorem expandNode_eq (K : PointBV S BV) (vertices : List (Vector3 S))
    (ucs : List (Variance3 S)) (r : S) (bvnode : BVNode BV) :
    expandNode K vertices ucs r bvnode
      = (owned vertices ucs bvnode).map fun l => (pointsOf r l).foldl K.incl K.init :=
  forLoop_expandVertex K vertices ucs r bvnode _ 0 K.init

end Loops

section NodeLoop

variable {S BV : Type}

theorem traverse_eq_some {α β : Type} (f : α → Option β) (l : List α) (l1 : List β) :
    traverse f l = some l1 ↔ List.Forall₂ (fun a b => f a = some b) l l1 := by
  induction l generalizing l1 with
  | nil => cases l1 <;> simp [traverse]
  | cons a l ih =>
    cases l1 with
    | nil =>
      simp only [traverse, List.forall₂_nil_right_iff, reduceCtorEq, iff_false]
      cases f a with
      | none => simp
      | some b => cases traverse f l <;> simp
    | cons b l1 =>
      simp only [traverse, List.forall₂_cons]
      cases hfa : f a with
      | none => simp
      | some b1 =>
        cases htr : traverse f l with
        | none =>
          have := (ih l1).not.mp (by simp [htr])
          simp [this]
        | some l2 =>
          simp only [Option.some_bind, Option.map_some', Option.some.injEq, List.cons.injEq]
          rw [← ih l1, htr]
          simp

theorem forLoop_nodes (g : List (Vector3 S) → BVNode BV → Option BV)
    (step : Nat → BVHModel S BV → Option (BVHModel S BV))
    (hstep : ∀ i model, step i model = (model.getBV i).bind fun bvnode =>
      (g model.vertices bvnode).bind fun bv =>
        some { model with bvs := model.bvs.set i { bvnode with bv := bv } })
    (vertices : List (Vector3 S)) (rest pre : List (BVNode BV)) :
    forLoop step pre.length rest.length ⟨vertices, pre ++ rest⟩
      = (traverse (rebound (g vertices)) rest).map fun l => ⟨vertices, pre ++ l⟩ := by
  induction rest generalizing pre with
  | nil => simp [forLoop, traverse]
  | cons nd rest ih =>
    simp only [List.length_cons, forLoop, traverse, hstep, BVHModel.getBV, rebound]
    have hget : (pre ++ nd :: rest)[pre.length]? = some nd := by
      rw [List.getElem?_append_right (Nat.le_refl _)]; simp
    rw [hget]
    simp only [Option.some_bind]
    cases hg : g vertices nd with
    | none => rfl
    | some bv =>
      have hset : (pre ++ nd :: rest).set pre.length { nd with bv := bv }
          = (pre ++ [{ nd with bv := bv }]) ++ rest := by simp
      have hlen : pre.length + 1 = (pre ++ [{ nd with bv := bv }]).length := by simp
      simp only [Option.some_bind, Option.map_some', hset]
      rw [hlen, ih]
      cases traverse (rebound (g vertices)) rest with
      | none => rfl
      | some l => simp

theorem forLoop_model (g : List (Vector3 S) → BVNode BV → Option BV)
    (step : Nat → BVHModel S BV → Option (BVHModel S BV))
    (hstep : ∀ i model, step i model = (model.getBV i).bind fun bvnode =>
      (g model.vertices bvnode).bind fun bv =>
        some { model with bvs := model.bvs.set i { bvnode with bv := bv } })
    (model : BVHModel S BV) :
    forLoop step 0 model.num_bvs.toNat model
      = (traverse (rebound (g model.vertices)) model.bvs).map fun l => ⟨model.vertices, l⟩ := by
  have h := forLoop_nodes g step hstep model.vertices model.bvs []
  simpa [BVHModel.num_bvs] using h

variable [LinearOrderedCommRing S]

/-- The generic overload replaces the bound of every node by the one
`expandNode` computes, and changes nothing else. -/
theorem BVHExpand_eq (K : PointBV S BV) (model : BVHModel S BV) (ucs : List (Variance3 S))
    (r : S) :
    BVHExpand K model ucs r
      = (traverse (rebound (expandNode K model.vertices ucs r)) model.bvs).map
          fun l => ⟨model.vertices, l⟩ :=
  forLoop_model (fun vertices => expandNode K vertices ucs r) _ (fun _ _ => rfl) model

/-- The `OBB` overload replaces the bound of every node by the one `fitNodeOBB`
computes, and changes nothing else. -/
theorem BVHExpandOBB_eq (F : FitBV S BV) (model : BVHModel S BV) (ucs : List (Variance3 S))
    (r : S) :
    BVHExpandOBB F model ucs r
      = (traverse (rebound (fitNodeOBB F model.vertices ucs r)) model.bvs).map
          fun l => ⟨model.vertices, l⟩ :=
  forLoop_model (fun vertices => fitNodeOBB F vertices ucs r) _ (fun _ _ => rfl) model

/-- The `RSS` overload replaces the bound of every node by the one `fitNodeRSS`
computes, and changes nothing else. -/
theorem BVHExpandRSS_eq (F : FitBV S BV) (model : BVHModel S BV) (ucs : List (Variance3 S))
    (r : S) :
    BVHExpandRSS F model ucs r
      = (traverse (rebound (fitNodeRSS F model.vertices ucs r)) model.bvs).map
          fun l => ⟨model.vertices, l⟩ :=
  forLoop_model (fun vertices => fitNodeRSS F vertices ucs r) _ (fun _ _ => rfl) model

end NodeLoop

section Buffer

variable {S BV : Type} [LinearOrderedCommRing S]

theorem readAll_map_some {α : Type} (l : List α) : readAll (l.map some) = some l := by
  induction l with
  | nil => rfl
  | cons a l ih => simp [readAll, ih]

theorem writeAt_offset {α : Type} (pre l : List (Option α)) (t : Nat) (p : α)
    (ht : t < l.length) :
    writeAt (pre ++ l) (pre.length + t) p = some (pre ++ l.set t (some p)) := by
  unfold writeAt
  rw [if_pos (by simp; omega), List.set_append_right _ _ (Nat.le_add_right _ _)]
  simp

theorem fillAxisOBB_eq_fillAxisAt (v : Vector3 S) (uc : Variance3 S) (r : S) (j k : Nat)
    (hk : k < 3) (hidx : 6 * (j : Int) + 5 ≤ INT_MAX) :
    fillAxisOBB v uc r j k = fillAxisAt v uc r j k := by
  funext vs
  have e0 : (6 * (j : Int) + 2 * (k : Int)) = ((6 * j + 2 * k : Nat) : Int) := by push_cast; ring
  have e1 : ((6 * j + 2 * k : Nat) : Int) + 1 = ((6 * j + 2 * k + 1 : Nat) : Int) := by
    push_cast; ring
  unfold fillAxisOBB fillAxisAt
  rw [e0, e1]
  simp only [writeAtInt_natCast _ (6 * j + 2 * k) _ (by push_cast; omega),
    writeAtInt_natCast _ (6 * j + 2 * k + 1) _ (by push_cast; omega)]

theorem forLoop_fillAxisOBB (v : Vector3 S) (uc : Variance3 S) (r : S) (j : Nat)
    (pre post : List (Option (Vector3 S))) (c0 c1 c2 c3 c4 c5 : Option (Vector3 S))
    (hpre : pre.length = 6 * j) (hidx : 6 * (j : Int) + 5 ≤ INT_MAX) :
    forLoop (fillAxisOBB v uc r j) 0 3 (pre ++ c0 :: c1 :: c2 :: c3 :: c4 :: c5 :: post)
      = some (pre ++ ((extremalPoints v uc r).map some ++ post)) := by
  rw [forLoop_congr _ (fillAxisAt v uc r j) 3 0
    (fun k _ hk => fillAxisOBB_eq_fillAxisAt v uc r j k (by omega) hidx)]
  simp only [forLoop, fillAxisAt, Matrix3.col, Vector3.coeff, Option.some_bind, ← hpre,
    Nat.mul_zero, Nat.add_zero, Nat.mul_one, Nat.zero_add, Nat.reduceAdd, Nat.reduceMul]
  have h0 := fun p l (h : 0 < List.length l) => writeAt_offset pre l 0 p h
  simp only [Nat.add_zero] at h0
  rw [h0 _ _ (by simp)]
  simp only [Option.some_bind, List.set_cons_zero, List.set_cons_succ, Nat.add_assoc,
    Nat.reduceAdd]
  rw [writeAt_offset pre _ 1 _ (by simp)]
  simp only [Option.some_bind, List.set_cons_zero, List.set_cons_succ]
  rw [writeAt_offset pre _ 2 _ (by simp)]
  simp only [Option.some_bind, List.set_cons_zero, List.set_cons_succ]
  rw [writeAt_offset pre _ 3 _ (by simp)]
  simp only [Option.some_bind, List.set_cons_zero, List.set_cons_succ]
  rw [writeAt_offset pre _ 4 _ (by simp)]
  simp only [Option.some_bind, List.set_cons_zero, List.set_cons_succ]
  rw [writeAt_offset pre _ 5 _ (by simp)]
  simp [extremalPoints]

theorem forLoop_fillAxisRSS (v : Vector3 S) (uc : Variance3 S) (r : S) (j : Nat)
    (pre post : List (Option (Vector3 S))) (c0 c1 c2 c3 c4 c5 : Option (Vector3 S))
    (hpre : pre.length = 6 * j) (hidx : 6 * (j : Int) + 5 ≤ INT_MAX) :
    forLoop (fillAxisRSS v uc r j) 0 3 (pre ++ c0 :: c1 :: c2 :: c3 :: c4 :: c5 :: post)
      = some (pre ++ ((extremalPoints v uc r).map some ++ post)) :=
  forLoop_fillAxisOBB v uc r j pre post c0 c1 c2 c3 c4 c5 hpre hidx

theorem fillVertexOBB_eq (vertices : List (Vector3 S)) (ucs : List (Variance3 S)) (r : S)
    (bvnode : BVNode BV) (j : Nat) (pre post : List (Option (Vector3 S)))
    (c0 c1 c2 c3 c4 c5 : Option (Vector3 S)) (hpre : pre.length = 6 * j)
    (hidx : 6 * (j : Int) + 5 ≤ INT_MAX) :
    fillVertexOBB vertices ucs r bvnode j (pre ++ c0 :: c1 :: c2 :: c3 :: c4 :: c5 :: post)
      = (ownedAt vertices ucs bvnode j).bind fun vu =>
          some (pre ++ ((extremalPoints vu.1 vu.2 r).map some ++ post)) := by
  simp only [fillVertexOBB, ownedAt]
  cases asInt (bvnode.first_primitive + j) with
  | none => rfl
  | some i =>
    simp only [Option.some_bind]
    cases readAt ucs i with
    | none => rfl
    | some uc =>
      cases readAt vertices i with
      | none => rfl
      | some v =>
        simp only [Option.some_bind]
        exact forLoop_fillAxisOBB v uc r j pre post c0 c1 c2 c3 c4 c5 hpre hidx

theorem forLoop_fillVertexOBB (vertices : List (Vector3 S)) (ucs : List (Variance3 S)) (r : S)
    (bvnode : BVNode BV) (count start : Nat) (done : List (Vector3 S))
    (hdone : done.length = 6 * start) (hidx : 6 * ((start : Int) + count) ≤ INT_MAX + 1) :
    forLoop (fillVertexOBB vertices ucs r bvnode) start count
        (done.map some ++ List.replicate (6 * count) none)
      = (gather (ownedAt vertices ucs bvnode) start count).map
          fun l => (done ++ pointsOf r l).map some := by
  induction count generalizing start done with
  | zero => simp [forLoop, gather, pointsOf]
  | succ n ih =>
    have hrep : List.replicate (6 * (n + 1)) (none : Option (Vector3 S))
        = none :: none :: none :: none :: none :: none :: List.replicate (6 * n) none := by
      rw [show 6 * (n + 1) = 6 * n + 1 + 1 + 1 + 1 + 1 + 1 by ring]
      simp only [List.replicate_succ]
    simp only [forLoop, gather, hrep]
    rw [fillVertexOBB_eq vertices ucs r bvnode start _ _ _ _ _ _ _ _ (by simpa using hdone)
      (by push_cast at hidx; omega)]
    cases ownedAt vertices ucs bvnode start with
    | none => rfl
    | some vu =>
      simp only [Option.some_bind]
      have h := ih (start + 1) (done ++ extremalPoints vu.1 vu.2 r)
        (by simp [extremalPoints, hdone]; ring) (by push_cast at hidx ⊢; omega)
      rw [List.map_append, List.append_assoc] at h
      rw [h]
      cases gather (ownedAt vertices ucs bvnode) (start + 1) n with
      | none => rfl
      | some l => simp [pointsOf]

/-- The buffer of the `OBB` overload holds the extremal points of the owned
vertices, in index order; without an allocation there is no buffer. -/
theorem bufferOBB_eq (vertices : List (Vector3 S)) (ucs : List (Variance3 S)) (r : S)
    (bvnode : BVNode BV) :
    bufferOBB vertices ucs r bvnode
      = if 0 ≤ bvnode.num_primitives ∧ bvnode.num_primitives * 6 ≤ INT_MAX then
          (owned vertices ucs bvnode).map (pointsOf r)
        else none := by
  unfold bufferOBB newArray owned
  by_cases hn : 0 ≤ bvnode.num_primitives ∧ bvnode.num_primitives * 6 ≤ INT_MAX
  · have h6 : 0 ≤ bvnode.num_primitives * 6 := by omega
    have hnat : (bvnode.num_primitives * 6).toNat = 6 * bvnode.num_primitives.toNat := by omega
    rw [asInt_of_range (by unfold INT_MIN; omega) hn.2]
    simp only [Option.some_bind]
    rw [if_pos h6, if_pos hn, hnat]
    simp only [Option.some_bind]
    have h := forLoop_fillVertexOBB vertices ucs r bvnode bvnode.num_primitives.toNat 0 [] rfl
      (by push_cast; omega)
    simp only [List.map_nil, List.nil_append] at h
    rw [h]
    cases gather (ownedAt vertices ucs bvnode) 0 bvnode.num_primitives.toNat with
    | none => rfl
    | some l => simp [readAll_map_some]
  · rw [if_neg hn]
    by_cases hr : INT_MIN ≤ bvnode.num_primitives * 6 ∧ bvnode.num_primitives * 6 ≤ INT_MAX
    · rw [asInt_of_range hr.1 hr.2]
      simp only [Option.some_bind]
      have h6 : ¬ 0 ≤ bvnode.num_primitives * 6 := by
        intro h0
        exact hn ⟨by omega, hr.2⟩
      rw [if_neg h6]
      rfl
    · rw [asInt_of_not_range hr]
      rfl

theorem bufferRSS_eq_bufferOBB (vertices : List (Vector3 S)) (ucs : List (Variance3 S)) (r : S)
    (bvnode : BVNode BV) :
    bufferRSS vertices ucs r bvnode = bufferOBB vertices ucs r bvnode := rfl

theorem fitNodeRSS_eq_fitNodeOBB (F : FitBV S BV) (vertices : List (Vector3 S))
    (ucs : List (Variance3 S)) (r : S) (bvnode : BVNode BV) :
    fitNodeRSS F vertices ucs r bvnode = fitNodeOBB F vertices ucs r bvnode := rfl

/-- The bound of the `OBB` overload is `fit` of the extremal points of the
owned vertices. -/
theorem fitNodeOBB_eq (F : FitBV S BV) (vertices : List (Vector3 S))
    (ucs : List (Variance3 S)) (r : S) (bvnode : BVNode BV) :
    fitNodeOBB F vertices ucs r bvnode
      = if 0 ≤ bvnode.num_primitives ∧ bvnode.num_primitives * 6 ≤ INT_MAX then
          (owned vertices ucs bvnode).map fun l =>
            F.fit (pointsOf r l) (bvnode.num_primitives * 6) F.init
        else none := by
  unfold fitNodeOBB
  rw [bufferOBB_eq]
  split
  · rename_i hn
    rw [asInt_of_range (by unfold INT_MIN; omega) hn.2]
    cases owned vertices ucs bvnode <;> rfl
  · rfl

end Buffer

section Lists

variable {S BV : Type}

theorem traverse_getElem? {α β : Type} (f : α → Option β) (l : List α) (l1 : List β)
    (h : traverse f l = some l1) (i : Nat) : l1[i]? = (l[i]?).bind f := by
  induction l generalizing l1 i with
  | nil =>
    simp only [traverse, Option.some.injEq] at h
    subst h
    simp
  | cons a l ih =>
    simp only [traverse] at h
    cases hfa : f a with
    | none => simp [hfa] at h
    | some b =>
      cases htr : traverse f l with
      | none => simp [hfa, htr] at h
      | some l2 =>
        simp only [hfa, htr, Option.some_bind, Option.map_some', Option.some.injEq] at h
        subst h
        cases i with
        | zero => simp [hfa]
        | succ i => simpa using ih l2 htr i

theorem traverse_length {α β : Type} (f : α → Option β) (l : List α) (l1 : List β)
    (h : traverse f l = some l1) : l1.length = l.length :=
  ((traverse_eq_some f l l1).mp h).length_eq.symm

theorem traverse_congr {α α1 β : Type} (f : α → Option β) (g : α1 → Option β)
    (l : List α) (l1 : List α1) (h : List.Forall₂ (fun a b => f a = g b) l l1) :
    traverse f l = traverse g l1 := by
  induction h with
  | nil => rfl
  | cons hab _ ih => simp only [traverse, hab, ih]

theorem gather_congr {β : Type} (f g : Nat → Option β) (count start : Nat)
    (h : ∀ j, start ≤ j → j < start + count → f j = g j) :
    gather f start count = gather g start count := by
  induction count generalizing start with
  | zero => rfl
  | succ n ih =>
    simp only [gather]
    rw [h start (Nat.le_refl _) (by omega), ih (start + 1) (fun j h1 h2 => h j (by omega) (by omega))]

theorem gather_getElem? {β : Type} (f : Nat → Option β) (count start : Nat) (l : List β)
    (h : gather f start count = some l) (j : Nat) (hj : j < count) :
    l[j]? = f (start + j) ∧ (f (start + j)).isSome := by
  induction count generalizing start l j with
  | zero => omega
  | succ n ih =>
    simp only [gather] at h
    cases hf : f start with
    | none => simp [hf] at h
    | some b =>
      cases hg : gather f (start + 1) n with
      | none => simp [hf, hg] at h
      | some l2 =>
        simp only [hf, hg, Option.some_bind, Option.map_some', Option.some.injEq] at h
        subst h
        cases j with
        | zero => simp [hf]
        | succ j =>
          have := ih (start + 1) l2 hg j (by omega)
          rw [show start + (j + 1) = start + 1 + j by omega]
          simpa using this

theorem gather_length {β : Type} (f : Nat → Option β) (count start : Nat) (l : List β)
    (h : gather f start count = some l) : l.length = count := by
  induction count generalizing start l with
  | zero =>
    simp only [gather, Option.some.injEq] at h
    subst h; rfl
  | succ n ih =>
    simp only [gather] at h
    cases hf : f start with
    | none => simp [hf] at h
    | some b =>
      cases hg : gather f (start + 1) n with
      | none => simp [hf, hg] at h
      | some l2 =>
        simp only [hf, hg, Option.some_bind, Option.map_some', Option.some.injEq] at h
        subst h
        simp [ih (start + 1) l2 hg]

theorem mem_pointsOf {S : Type} [LinearOrderedCommRing S] (r : S)
    (l : List (Vector3 S × Variance3 S)) (p : Vector3 S) :
    p ∈ pointsOf r l ↔ ∃ vu ∈ l, p ∈ extremalPoints vu.1 vu.2 r := by
  induction l with
  | nil => simp [pointsOf]
  | cons vu l ih => simp [pointsOf, ih]

end Lists

section Frame

variable {S BV : Type}

theorem rebound_congr (g1 g2 : BVNode BV → Option BV) (nd1 nd2 : BVNode BV)
    (hr : nd1.range = nd2.range) (hg : g1 nd1 = g2 nd2) : rebound g1 nd1 = rebound g2 nd2 := by
  cases nd1; cases nd2
  simp only [BVNode.range, Prod.mk.injEq] at hr
  obtain ⟨h1, h2⟩ := hr
  subst h1 h2
  simp only [rebound, hg]

theorem rebound_range (g : BVNode BV → Option BV) (nd nd1 : BVNode BV)
    (h : rebound g nd = some nd1) : nd1.range = nd.range := by
  unfold rebound at h
  cases hg : g nd with
  | none => simp [hg] at h
  | some bv =>
    simp only [hg, Option.map_some', Option.some.injEq] at h
    subst h; rfl

theorem traverse_rebound_congr (g : BVNode BV → Option BV)
    (hg : ∀ nd1 nd2 : BVNode BV, nd1.range = nd2.range → g nd1 = g nd2)
    (l1 l2 : List (BVNode BV)) (h : l1.map BVNode.range = l2.map BVNode.range) :
    traverse (rebound g) l1 = traverse (rebound g) l2 := by
  induction l1 generalizing l2 with
  | nil =>
    cases l2 with
    | nil => rfl
    | cons b l2 => simp at h
  | cons a l1 ih =>
    cases l2 with
    | nil => simp at h
    | cons b l2 =>
      simp only [List.map_cons, List.cons.injEq] at h
      simp only [traverse, rebound_congr g g a b h.1 (hg a b h.1), ih l2 h.2]

theorem traverse_rebound_range (g : BVNode BV → Option BV) (l l1 : List (BVNode BV))
    (h : traverse (rebound g) l = some l1) : l1.map BVNode.range = l.map BVNode.range := by
  have h2 := (traverse_eq_some _ l l1).mp h
  induction h2 with
  | nil => rfl
  | cons hab _ ih =>
    rename_i a b l l1 hrest
    simp only [List.map_cons, rebound_range g a b hab,
      ih ((traverse_eq_some _ l l1).mpr hrest)]

/-- What a run that rebounds every node leaves unchanged, and what it writes. -/
theorem model_frame (g : BVNode BV → Option BV) (model model1 : BVHModel S BV)
    (h : (traverse (rebound g) model.bvs).map (fun l => (⟨model.vertices, l⟩ : BVHModel S BV))
      = some model1) :
    model1.vertices = model.vertices ∧ model1.num_bvs = model.num_bvs
      ∧ model1.bvs.map BVNode.range = model.bvs.map BVNode.range
      ∧ ∀ i : Nat, model1.bvs[i]? = (model.bvs[i]?).bind (rebound g) := by
  cases htr : traverse (rebound g) model.bvs with
  | none => simp [htr] at h
  | some l =>
    simp only [htr, Option.map_some', Option.some.injEq] at h
    subst h
    refine ⟨rfl, ?_, traverse_rebound_range g _ _ htr, traverse_getElem? _ _ _ htr⟩
    simp [BVHModel.num_bvs, traverse_length _ _ _ htr]

/-- A run that rebounds every node from its range alone does not see the
previous bounds, and running it again changes nothing. -/
theorem model_independent (g : List (Vector3 S) → BVNode BV → Option BV)
    (hg : ∀ vertices (nd1 nd2 : BVNode BV), nd1.range = nd2.range → g vertices nd1 = g vertices nd2)
    (run : BVHModel S BV → Option (BVHModel S BV))
    (hrun : ∀ model, run model
      = (traverse (rebound (g model.vertices)) model.bvs).map fun l => ⟨model.vertices, l⟩)
    (m1 m2 : BVHModel S BV) (hv : m1.vertices = m2.vertices)
    (hr : m1.bvs.map BVNode.range = m2.bvs.map BVNode.range) :
    run m1 = run m2 ∧ ∀ m3, run m1 = some m3 → run m3 = some m3 := by
  have key : ∀ ma mb : BVHModel S BV, ma.vertices = mb.vertices →
      ma.bvs.map BVNode.range = mb.bvs.map BVNode.range → run ma = run mb := by
    intro ma mb hva hra
    rw [hrun, hrun, hva, traverse_rebound_congr (g mb.vertices) (hg mb.vertices) _ _ hra]
  refine ⟨key m1 m2 hv hr, ?_⟩
  intro m3 h3
  have hf := model_frame (g m1.vertices) m1 m3 (by rw [← hrun]; exact h3)
  rw [key m3 m1 hf.1 hf.2.2.1]
  exact h3

theorem ownedAt_eq_some (vertices : List (Vector3 S)) (ucs : List (Variance3 S))
    (nd : BVNode BV) (j : Nat) (v : Vector3 S) (uc : Variance3 S) :
    ownedAt vertices ucs nd j = some (v, uc)
      ↔ (INT_MIN ≤ nd.first_primitive + j ∧ nd.first_primitive + j ≤ INT_MAX)
        ∧ readAt ucs (nd.first_primitive + j) = some uc
        ∧ readAt vertices (nd.first_primitive + j) = some v := by
  unfold ownedAt
  by_cases hr : INT_MIN ≤ nd.first_primitive + j ∧ nd.first_primitive + j ≤ INT_MAX
  · rw [asInt_of_range hr.1 hr.2]
    simp only [Option.some_bind, hr, true_and]
    cases readAt ucs (nd.first_primitive + j) with
    | none => simp
    | some uc1 =>
      cases readAt vertices (nd.first_primitive + j) with
      | none => simp
      | some v1 =>
        simp only [Option.some_bind, Option.some.injEq, Prod.mk.injEq]
        exact ⟨fun h => ⟨h.2, h.1⟩, fun h => ⟨h.2, h.1⟩⟩
  · rw [asInt_of_not_range hr]
    simp [hr]

theorem owned_congr_range (vertices : List (Vector3 S)) (ucs : List (Variance3 S))
    (nd1 nd2 : BVNode BV) (h : nd1.range = nd2.range) :
    owned vertices ucs nd1 = owned vertices ucs nd2 := by
  cases nd1; cases nd2
  simp only [BVNode.range, Prod.mk.injEq] at h
  obtain ⟨h1, h2⟩ := h
  subst h1 h2
  rfl

theorem owned_congr_ucs (vertices : List (Vector3 S)) (ucs1 ucs2 : List (Variance3 S))
    (nd : BVNode BV) (h : ∀ idx, nd.owns idx → readAt ucs1 idx = readAt ucs2 idx) :
    owned vertices ucs1 nd = owned vertices ucs2 nd := by
  unfold owned
  apply gather_congr
  intro j _ hj
  unfold ownedAt
  cases hi : asInt (nd.first_primitive + j) with
  | none => rfl
  | some i =>
    obtain ⟨rfl, _⟩ := asInt_eq_some hi
    simp only [Option.some_bind]
    rw [h (nd.first_primitive + j) ⟨by omega, by omega⟩]

end Frame

section NodeCongr

variable {S BV : Type} [LinearOrderedCommRing S]

theorem expandNode_congr_range (K : PointBV S BV) (ucs : List (Variance3 S)) (r : S)
    (vertices : List (Vector3 S)) (nd1 nd2 : BVNode BV) (h : nd1.range = nd2.range) :
    expandNode K vertices ucs r nd1 = expandNode K vertices ucs r nd2 := by
  rw [expandNode_eq, expandNode_eq, owned_congr_range vertices ucs nd1 nd2 h]

theorem fitNodeOBB_congr_range (F : FitBV S BV) (ucs : List (Variance3 S)) (r : S)
    (vertices : List (Vector3 S)) (nd1 nd2 : BVNode BV) (h : nd1.range = nd2.range) :
    fitNodeOBB F vertices ucs r nd1 = fitNodeOBB F vertices ucs r nd2 := by
  rw [fitNodeOBB_eq, fitNodeOBB_eq, owned_congr_range vertices ucs nd1 nd2 h]
  simp only [BVNode.range, Prod.mk.injEq] at h
  rw [h.2]

theorem fitNodeRSS_congr_range (F : FitBV S BV) (ucs : List (Variance3 S)) (r : S)
    (vertices : List (Vector3 S)) (nd1 nd2 : BVNode BV) (h : nd1.range = nd2.range) :
    fitNodeRSS F vertices ucs r nd1 = fitNodeRSS F vertices ucs r nd2 :=
  fitNodeOBB_congr_range F ucs r vertices nd1 nd2 h

end NodeCongr

/-! ## Claims on all three overloads -/

section Claims

variable {S BV : Type} [LinearOrderedCommRing S]

/-- C2: the bounds `BVHExpand` writes do not depend on the bounds the nodes held
before: two trees with the same vertices and the same owned ranges give the
same result, and running `BVHExpand` again on its own result gives that result
again (generic, `OBB` and `RSS` overloads). -/
theorem independent_of_previous_bound (K : PointBV S BV) (F : FitBV S BV)
    (m1 m2 : BVHModel S BV) (ucs : List (Variance3 S)) (r : S)
    (hv : m1.vertices = m2.vertices)
    (hr : m1.bvs.map BVNode.range = m2.bvs.map BVNode.range) :
    (BVHExpand K m1 ucs r = BVHExpand K m2 ucs r
        ∧ ∀ m3, BVHExpand K m1 ucs r = some m3 → BVHExpand K m3 ucs r = some m3)
      ∧ (BVHExpandOBB F m1 ucs r = BVHExpandOBB F m2 ucs r
        ∧ ∀ m3, BVHExpandOBB F m1 ucs r = some m3 → BVHExpandOBB F m3 ucs r = some m3)
      ∧ (BVHExpandRSS F m1 ucs r = BVHExpandRSS F m2 ucs r
        ∧ ∀ m3, BVHExpandRSS F m1 ucs r = some m3 → BVHExpandRSS F m3 ucs r = some m3) :=
  ⟨model_independent (fun vertices => expandNode K vertices ucs r)
      (expandNode_congr_range K ucs r) (fun m => BVHExpand K m ucs r)
      (fun m => BVHExpand_eq K m ucs r) m1 m2 hv hr,
    model_independent (fun vertices => fitNodeOBB F vertices ucs r)
      (fitNodeOBB_congr_range F ucs r) (fun m => BVHExpandOBB F m ucs r)
      (fun m => BVHExpandOBB_eq F m ucs r) m1 m2 hv hr,
    model_independent (fun vertices => fitNodeRSS F vertices ucs r)
      (fitNodeRSS_congr_range F ucs r) (fun m => BVHExpandRSS F m ucs r)
      (fun m => BVHExpandRSS_eq F m ucs r) m1 m2 hv hr⟩

/-- C7: node isolation.  If two uncertainty arrays agree on every index outside
the owned range of a node `A`, and the owned range of node `B` (the node at
index `b` of the tree) is disjoint from that of `A`, then the bound computed
for `B` is the same with either array, and whenever `BVHExpand` returns with
both arrays the two resulting trees hold the same node at index `b` (generic,
`OBB` and `RSS` overloads, the latter two for any fixed `fit`). -/
theorem node_isolation (K : PointBV S BV) (F : FitBV S BV) (model : BVHModel S BV)
    (ucs1 ucs2 : List (Variance3 S)) (r : S) (A B : BVNode BV) (b : Nat)
    (hB : model.bvs[b]? = some B)
    (hagree : ∀ idx, ¬ A.owns idx → readAt ucs1 idx = readAt ucs2 idx)
    (hdisj : ∀ idx, B.owns idx → ¬ A.owns idx) :
    (expandNode K model.vertices ucs1 r B = expandNode K model.vertices ucs2 r B
        ∧ ∀ m1 m2, BVHExpand K model ucs1 r = some m1 → BVHExpand K model ucs2 r = some m2 →
            m1.bvs[b]? = m2.bvs[b]?)
      ∧ (fitNodeOBB F model.vertices ucs1 r B = fitNodeOBB F model.vertices ucs2 r B
        ∧ ∀ m1 m2, BVHExpandOBB F model ucs1 r = some m1 → BVHExpandOBB F model ucs2 r = some m2 →
            m1.bvs[b]? = m2.bvs[b]?)
      ∧ (fitNodeRSS F model.vertices ucs1 r B = fitNodeRSS F model.vertices ucs2 r B
        ∧ ∀ m1 m2, BVHExpandRSS F model ucs1 r = some m1 → BVHExpandRSS F model ucs2 r = some m2 →
            m1.bvs[b]? = m2.bvs[b]?) := by
  have hown : owned model.vertices ucs1 B = owned model.vertices ucs2 B :=
    owned_congr_ucs model.vertices ucs1 ucs2 B fun idx h => hagree idx (hdisj idx h)
  have hgen : expandNode K model.vertices ucs1 r B = expandNode K model.vertices ucs2 r B := by
    rw [expandNode_eq, expandNode_eq, hown]
  have hobb : fitNodeOBB F model.vertices ucs1 r B = fitNodeOBB F model.vertices ucs2 r B := by
    rw [fitNodeOBB_eq, fitNodeOBB_eq, hown]
  have hrss : fitNodeRSS F model.vertices ucs1 r B = fitNodeRSS F model.vertices ucs2 r B := hobb
  refine ⟨⟨hgen, ?_⟩, ⟨hobb, ?_⟩, ⟨hrss, ?_⟩⟩
  · intro m1 m2 h1 h2
    rw [BVHExpand_eq] at h1 h2
    rw [(model_frame _ model m1 h1).2.2.2 b, (model_frame _ model m2 h2).2.2.2 b, hB]
    simp only [Option.some_bind, rebound, hgen]
  · intro m1 m2 h1 h2
    rw [BVHExpandOBB_eq] at h1 h2
    rw [(model_frame _ model m1 h1).2.2.2 b, (model_frame _ model m2 h2).2.2.2 b, hB]
    simp only [Option.some_bind, rebound, hobb]
  · intro m1 m2 h1 h2
    rw [BVHExpandRSS_eq] at h1 h2
    rw [(model_frame _ model m1 h1).2.2.2 b, (model_frame _ model m2 h2).2.2.2 b, hB]
    simp only [Option.some_bind, rebound, hrss]

/-- C10: frame.  Whenever `BVHExpand` returns (generic, `OBB` and `RSS`
overloads), the vertex array, the number of nodes and every node's owned range
`(first_primitive, num_primitives)` are the ones of the input tree; only the
`bv` field of the nodes can differ.  The uncertainty array is passed by pointer
to `const` and is not part of the result. -/
theorem frame_only_bounds_change (K : PointBV S BV) (F : FitBV S BV) (model model1 : BVHModel S BV)
    (ucs : List (Variance3 S)) (r : S)
    (h : BVHExpand K model ucs r = some model1 ∨ BVHExpandOBB F model ucs r = some model1
      ∨ BVHExpandRSS F model ucs r = some model1) :
    model1.vertices = model.vertices ∧ model1.num_bvs = model.num_bvs
      ∧ model1.bvs.map BVNode.range = model.bvs.map BVNode.range := by
  rcases h with h | h | h
  · rw [BVHExpand_eq] at h
    have hf := model_frame _ model model1 h
    exact ⟨hf.1, hf.2.1, hf.2.2.1⟩
  · rw [BVHExpandOBB_eq] at h
    have hf := model_frame _ model model1 h
    exact ⟨hf.1, hf.2.1, hf.2.2.1⟩
  · rw [BVHExpandRSS_eq] at h
    have hf := model_frame _ model model1 h
    exact ⟨hf.1, hf.2.1, hf.2.2.1⟩

end Claims

section Gathered

variable {S BV : Type}

/-- Every position of the owned range of a node that could be gathered can be
read, and what is read there is in the gathered list. -/
theorem owned_mem (vertices : List (Vector3 S)) (ucs : List (Variance3 S)) (nd : BVNode BV)
    (l : List (Vector3 S × Variance3 S)) (h : owned vertices ucs nd = some l) (j : Nat)
    (hj : (j : Int) < nd.num_primitives) :
    ∃ v uc, readAt vertices (nd.first_primitive + j) = some v
      ∧ readAt ucs (nd.first_primitive + j) = some uc ∧ (v, uc) ∈ l := by
  have hj1 : j < nd.num_primitives.toNat := by omega
  have hg := gather_getElem? _ _ 0 l h j hj1
  rw [Nat.zero_add] at hg
  obtain ⟨vu, hvu⟩ := Option.isSome_iff_exists.mp hg.2
  obtain ⟨_, huc, hv⟩ := (ownedAt_eq_some vertices ucs nd j vu.1 vu.2).mp hvu
  refine ⟨vu.1, vu.2, hv, huc, ?_⟩
  have h1 : l[j]? = some vu := by rw [hg.1, hvu]
  exact List.getElem?_mem h1

theorem traverse_isSome {α β : Type} (f : α → Option β) (l : List α) :
    (traverse f l).isSome ↔ ∀ a ∈ l, (f a).isSome := by
  induction l with
  | nil => simp [traverse]
  | cons a l ih =>
    simp only [traverse, List.mem_cons, forall_eq_or_imp, ← ih]
    cases f a with
    | none => simp
    | some b => cases traverse f l <;> simp

theorem ownedVertices_of_owned (vertices : List (Vector3 S)) (ucs : List (Variance3 S))
    (nd : BVNode BV) (l : List (Vector3 S × Variance3 S)) (h : owned vertices ucs nd = some l) :
    ownedVertices vertices nd = some (l.map Prod.fst) := by
  unfold owned at h
  unfold ownedVertices
  generalize nd.num_primitives.toNat = count at h ⊢
  generalize 0 = start at h ⊢
  induction count generalizing start l with
  | zero =>
    simp only [gather, Option.some.injEq] at h ⊢
    subst h; rfl
  | succ n ih =>
    simp only [gather] at h ⊢
    cases hoa : ownedAt vertices ucs nd start with
    | none => simp [hoa] at h
    | some vu =>
      obtain ⟨_, _, hv⟩ := (ownedAt_eq_some vertices ucs nd start vu.1 vu.2).mp hoa
      cases hg : gather (ownedAt vertices ucs nd) (start + 1) n with
      | none => simp [hoa, hg] at h
      | some l2 =>
        simp only [hoa, hg, Option.some_bind, Option.map_some', Option.some.injEq] at h
        subst h
        simp [ih l2 (start + 1) hg, hv]

end Gathered

section Nodes

variable {S BV : Type} [LinearOrderedCommRing S]

/-- The node the generic overload leaves at index `i`: its bound is the fold of
point inclusion over the extremal points of the owned vertices. -/
theorem BVHExpand_node (K : PointBV S BV) (model m1 : BVHModel S BV) (ucs : List (Variance3 S))
    (r : S) (h : BVHExpand K model ucs r = some m1) (i : Nat) (nd nd1 : BVNode BV)
    (hn : model.bvs[i]? = some nd) (hn1 : m1.bvs[i]? = some nd1) :
    ∃ l, owned model.vertices ucs nd = some l
      ∧ nd1.bv = (pointsOf r l).foldl K.incl K.init ∧ nd1.range = nd.range := by
  rw [BVHExpand_eq] at h
  have hi := (model_frame _ model m1 h).2.2.2 i
  rw [hn, hn1, Option.some_bind, rebound, expandNode_eq] at hi
  cases hl : owned model.vertices ucs nd with
  | none => simp [hl] at hi
  | some l =>
    simp only [hl, Option.map_some', Option.some.injEq] at hi
    subst hi
    exact ⟨l, rfl, rfl, rfl⟩

/-- The generic overload returns exactly when the owned range of every node
can be read from the vertex array and from the uncertainty array. -/
theorem BVHExpand_isSome (K : PointBV S BV) (model : BVHModel S BV) (ucs : List (Variance3 S))
    (r : S) :
    (BVHExpand K model ucs r).isSome ↔ ∀ nd ∈ model.bvs, (owned model.vertices ucs nd).isSome := by
  rw [BVHExpand_eq, Option.isSome_map', traverse_isSome]
  simp only [rebound, expandNode_eq, Option.isSome_map']

end Nodes

section BoxLemmas

variable {S : Type} [LinearOrderedCommRing S]

theorem interval_of_abs_le {lo hi v t u : S} (hP : lo ≤ v + t ∧ v + t ≤ hi)
    (hQ : lo ≤ v - t ∧ v - t ≤ hi) (h : |u| ≤ |t|) : lo ≤ v + u ∧ v + u ≤ hi := by
  have hu := abs_le.mp h
  rcases abs_cases t with ⟨ht, _⟩ | ⟨ht, _⟩ <;> rw [ht] at hu <;>
    constructor <;> linarith [hP.1, hP.2, hQ.1, hQ.2, hu.1, hu.2]

theorem abs_scale_le {a s r1 r2 : S} (h0 : 0 ≤ r1) (h12 : r1 ≤ r2) :
    |a * (r1 * s)| ≤ |a * (r2 * s)| := by
  rw [abs_mul, abs_mul, abs_mul, abs_mul, abs_of_nonneg h0, abs_of_nonneg (le_trans h0 h12)]
  exact mul_le_mul_of_nonneg_left (mul_le_mul_of_nonneg_right h12 (abs_nonneg s)) (abs_nonneg a)

theorem AABB.contain_incl_self (b : AABB S) (p : Vector3 S) : (b.incl p).contain p := by
  cases b <;> simp [AABB.incl, AABB.contain, Vector3.cwiseMin, Vector3.cwiseMax]

theorem AABB.contain_incl (b : AABB S) (p q : Vector3 S) (h : b.contain q) :
    (b.incl p).contain q := by
  cases b with
  | empty => exact absurd h (by simp [AABB.contain])
  | box lo hi =>
    simp only [AABB.contain] at h
    simp only [AABB.incl, AABB.contain, Vector3.cwiseMin, Vector3.cwiseMax, min_le_iff,
      le_max_iff]
    tauto

theorem AABB.contain_foldl (ps : List (Vector3 S)) (b : AABB S) (q : Vector3 S)
    (h : b.contain q) : (ps.foldl AABB.incl b).contain q := by
  induction ps generalizing b with
  | nil => exact h
  | cons p ps ih => exact ih _ (AABB.contain_incl b p q h)

theorem AABB.contain_foldl_mem (ps : List (Vector3 S)) (b : AABB S) (q : Vector3 S)
    (h : q ∈ ps) : (ps.foldl AABB.incl b).contain q := by
  induction ps generalizing b with
  | nil => simp at h
  | cons p ps ih =>
    rcases List.mem_cons.mp h with rfl | h
    · exact AABB.contain_foldl ps _ _ (AABB.contain_incl_self b _)
    · exact ih _ h

theorem AABB.contain_add_of_abs_le (b : AABB S) (v t u : Vector3 S)
    (hP : b.contain (v.add t)) (hQ : b.contain (v.sub t))
    (hx : |u.x| ≤ |t.x|) (hy : |u.y| ≤ |t.y|) (hz : |u.z| ≤ |t.z|) : b.contain (v.add u) := by
  cases b with
  | empty => exact absurd hP (by simp [AABB.contain])
  | box lo hi =>
    simp only [AABB.contain, Vector3.add, Vector3.sub] at hP hQ ⊢
    exact ⟨interval_of_abs_le hP.1 hQ.1 hx, interval_of_abs_le hP.2.1 hQ.2.1 hy,
      interval_of_abs_le hP.2.2 hQ.2.2 hz⟩

theorem AABB.contain_sub_of_abs_le (b : AABB S) (v t u : Vector3 S)
    (hP : b.contain (v.add t)) (hQ : b.contain (v.sub t))
    (hx : |u.x| ≤ |t.x|) (hy : |u.y| ≤ |t.y|) (hz : |u.z| ≤ |t.z|) : b.contain (v.sub u) := by
  have h := AABB.contain_add_of_abs_le b v t ⟨-u.x, -u.y, -u.z⟩ hP hQ
    (by simpa using hx) (by simpa using hy) (by simpa using hz)
  simpa [Vector3.add, Vector3.sub, sub_eq_add_neg] using h

theorem AABB.contain_center (b : AABB S) (v t : Vector3 S)
    (hP : b.contain (v.add t)) (hQ : b.contain (v.sub t)) : b.contain v := by
  have h := AABB.contain_add_of_abs_le b v t ⟨0, 0, 0⟩ hP hQ
    (by simp) (by simp) (by simp)
  simpa [Vector3.add] using h

theorem AABB.containBox_incl (B b : AABB S) (p : Vector3 S) (hb : B.containBox b)
    (hp : B.contain p) : B.containBox (b.incl p) := by
  cases B with
  | empty => exact absurd hp (by simp [AABB.contain])
  | box Lo Hi =>
    simp only [AABB.contain] at hp
    cases b with
    | empty => simp only [AABB.incl, AABB.containBox]; tauto
    | box lo hi =>
      simp only [AABB.containBox] at hb
      simp only [AABB.incl, AABB.containBox, Vector3.cwiseMin, Vector3.cwiseMax, le_min_iff,
        max_le_iff]
      tauto

theorem AABB.containBox_foldl (B : AABB S) (ps : List (Vector3 S)) (b : AABB S)
    (hb : B.containBox b) (hps : ∀ p ∈ ps, B.contain p) :
    B.containBox (ps.foldl AABB.incl b) := by
  induction ps generalizing b with
  | nil => exact hb
  | cons p ps ih =>
    exact ih _ (AABB.containBox_incl B b p hb (hps p (List.mem_cons_self _ _)))
      (fun q hq => hps q (List.mem_cons_of_mem _ hq))

theorem AABB.incl_idem (b : AABB S) (p : Vector3 S) : (b.incl p).incl p = b.incl p := by
  cases b <;> simp [AABB.incl, Vector3.cwiseMin, Vector3.cwiseMax, min_assoc, max_assoc]

end BoxLemmas

section BoxClaims

variable {S BV : Type} [LinearOrderedCommRing S]

theorem extremalPoints_zero (v : Vector3 S) (u : Variance3 S) :
    extremalPoints v u 0 = List.replicate 6 v := by
  simp [extremalPoints, Vector3.add, Vector3.sub, Vector3.scale, List.replicate]

theorem AABB.foldl_pointsOf_zero (l : List (Vector3 S × Variance3 S)) (b : AABB S) :
    (pointsOf 0 l).foldl AABB.incl b = (l.map Prod.fst).foldl AABB.incl b := by
  induction l generalizing b with
  | nil => rfl
  | cons vu l ih =>
    simp only [pointsOf, List.foldl_append, extremalPoints_zero, List.map_cons, List.foldl_cons,
      List.replicate, List.foldl_nil, AABB.incl_idem, ih]

theorem AABB.contain_extremal_mono (b : AABB S) (v : Vector3 S) (u : Variance3 S) (r1 r2 : S)
    (h0 : 0 ≤ r1) (h12 : r1 ≤ r2) (hb : ∀ q ∈ extremalPoints v u r2, b.contain q) :
    ∀ p ∈ extremalPoints v u r1, b.contain p := by
  intro p hp
  simp only [extremalPoints, List.mem_cons, List.mem_singleton, List.not_mem_nil, or_false,
    forall_eq_or_imp, forall_eq] at hp hb
  obtain ⟨a0, b0, a1, b1, a2, b2⟩ := hb
  rcases hp with rfl | rfl | rfl | rfl | rfl | rfl
  · exact AABB.contain_add_of_abs_le b v _ _ a0 b0 (abs_scale_le h0 h12) (abs_scale_le h0 h12)
      (abs_scale_le h0 h12)
  · exact AABB.contain_sub_of_abs_le b v _ _ a0 b0 (abs_scale_le h0 h12) (abs_scale_le h0 h12)
      (abs_scale_le h0 h12)
  · exact AABB.contain_add_of_abs_le b v _ _ a1 b1 (abs_scale_le h0 h12) (abs_scale_le h0 h12)
      (abs_scale_le h0 h12)
  · exact AABB.contain_sub_of_abs_le b v _ _ a1 b1 (abs_scale_le h0 h12) (abs_scale_le h0 h12)
      (abs_scale_le h0 h12)
  · exact AABB.contain_add_of_abs_le b v _ _ a2 b2 (abs_scale_le h0 h12) (abs_scale_le h0 h12)
      (abs_scale_le h0 h12)
  · exact AABB.contain_sub_of_abs_le b v _ _ a2 b2 (abs_scale_le h0 h12) (abs_scale_le h0 h12)
      (abs_scale_le h0 h12)

/-- C3: zero-confidence identity.  With confidence `0` each of the six extremal
points of a vertex is the vertex itself, so the loop over `k` includes the
vertex six times; and the bound the generic overload writes to a node of a tree
of axis-aligned boxes is the box obtained by including each owned vertex once
into the empty box. -/
theorem zero_confidence_identity (K : PointBV S BV) (v : Vector3 S) (u : Variance3 S) (bv : BV)
    (model m1 : BVHModel S (AABB S)) (ucs : List (Variance3 S))
    (h : BVHExpand aabbKind model ucs 0 = some m1) (i : Nat) (nd nd1 : BVNode (AABB S))
    (hn : model.bvs[i]? = some nd) (hn1 : m1.bvs[i]? = some nd1) :
    extremalPoints v u 0 = [v, v, v, v, v, v]
      ∧ forLoop (expandAxis K v u 0) 0 3 bv = some ([v, v, v, v, v, v].foldl K.incl bv)
      ∧ ∃ vs, ownedVertices model.vertices nd = some vs
          ∧ nd1.bv = vs.foldl AABB.incl AABB.empty := by
  refine ⟨extremalPoints_zero v u, ?_, ?_⟩
  · rw [forLoop_expandAxis, extremalPoints_zero]; rfl
  · obtain ⟨l, hl, hbv, _⟩ := BVHExpand_node aabbKind model m1 ucs 0 h i nd nd1 hn hn1
    refine ⟨l.map Prod.fst, ownedVertices_of_owned _ _ _ _ hl, ?_⟩
    rw [hbv]
    exact AABB.foldl_pointsOf_zero l AABB.empty

/-- C4: monotonic growth.  For confidences `r2 > r1 ≥ 0`, whenever the generic
overload returns on a tree of axis-aligned boxes with `r1` it also returns with
`r2`, and the box it writes to each node with `r2` contains the box it writes
to that node with `r1`. -/
theorem monotonic_growth (model m1 : BVHModel S (AABB S)) (ucs : List (Variance3 S)) (r1 r2 : S)
    (h0 : 0 ≤ r1) (h12 : r1 < r2) (h1 : BVHExpand aabbKind model ucs r1 = some m1) :
    ∃ m2, BVHExpand aabbKind model ucs r2 = some m2
      ∧ ∀ (i : Nat) (nd1 nd2 : BVNode (AABB S)), m1.bvs[i]? = some nd1 → m2.bvs[i]? = some nd2 →
          nd2.bv.containBox nd1.bv := by
  have hs : (BVHExpand aabbKind model ucs r2).isSome := by
    rw [BVHExpand_isSome, ← BVHExpand_isSome aabbKind model ucs r1, h1]; rfl
  obtain ⟨m2, h2⟩ := Option.isSome_iff_exists.mp hs
  refine ⟨m2, h2, ?_⟩
  intro i nd1 nd2 hn1 hn2
  have hi := (model_frame _ model m1 (by rw [← BVHExpand_eq]; exact h1)).2.2.2 i
  cases hn : model.bvs[i]? with
  | none => simp [hn, hn1] at hi
  | some nd =>
    obtain ⟨l, hl, hbv1, _⟩ := BVHExpand_node aabbKind model m1 ucs r1 h1 i nd nd1 hn hn1
    obtain ⟨l2, hl2, hbv2, _⟩ := BVHExpand_node aabbKind model m2 ucs r2 h2 i nd nd2 hn hn2
    rw [hl, Option.some.injEq] at hl2
    subst hl2
    rw [hbv1]
    apply AABB.containBox_foldl
    · cases nd2.bv <;> simp [aabbKind, AABB.containBox]
    · intro p hp
      obtain ⟨vu, hvu, hpv⟩ := (mem_pointsOf r1 l p).mp hp
      refine AABB.contain_extremal_mono nd2.bv vu.1 vu.2 r1 r2 h0 (le_of_lt h12) ?_ p hpv
      intro q hq
      rw [hbv2]
      exact AABB.contain_foldl_mem _ _ _ ((mem_pointsOf r2 l q).mpr ⟨vu, hvu, hq⟩)

/-- C5: containment of the generated points.  Whenever the generic overload
returns on a tree of axis-aligned boxes, for every node and every position `j`
of the node's owned range the vertex and its uncertainty can be read, and the
box written to the node contains all six extremal points of that vertex and the
vertex itself. -/
theorem contains_extremal_points (model m1 : BVHModel S (AABB S)) (ucs : List (Variance3 S))
    (r : S) (h : BVHExpand aabbKind model ucs r = some m1) (i : Nat) (nd nd1 : BVNode (AABB S))
    (hn : model.bvs[i]? = some nd) (hn1 : m1.bvs[i]? = some nd1) (j : Nat)
    (hj : (j : Int) < nd.num_primitives) :
    ∃ v uc, readAt model.vertices (nd.first_primitive + j) = some v
      ∧ readAt ucs (nd.first_primitive + j) = some uc
      ∧ (∀ p ∈ extremalPoints v uc r, nd1.bv.contain p) ∧ nd1.bv.contain v := by
  obtain ⟨l, hl, hbv, _⟩ := BVHExpand_node aabbKind model m1 ucs r h i nd nd1 hn hn1
  obtain ⟨v, uc, hv, huc, hmem⟩ := owned_mem model.vertices ucs nd l hl j hj
  have hall : ∀ p ∈ extremalPoints v uc r, nd1.bv.contain p := by
    intro p hp
    rw [hbv]
    exact AABB.contain_foldl_mem _ _ _ ((mem_pointsOf r l p).mpr ⟨(v, uc), hmem, hp⟩)
  refine ⟨v, uc, hv, huc, hall, ?_⟩
  exact AABB.contain_center nd1.bv v (uc.axis.c0.scale (r * uc.sigma.x))
    (hall _ (by simp [extremalPoints])) (hall _ (by simp [extremalPoints]))

end BoxClaims

section Ellipsoid

variable {S : Type} [LinearOrderedCommRing S]

theorem interval_of_abs_sum {lo hi v t0 t1 t2 c0 c1 c2 : S}
    (h0P : lo ≤ v + t0 ∧ v + t0 ≤ hi) (h0Q : lo ≤ v - t0 ∧ v - t0 ≤ hi)
    (h1P : lo ≤ v + t1 ∧ v + t1 ≤ hi) (h1Q : lo ≤ v - t1 ∧ v - t1 ≤ hi)
    (h2P : lo ≤ v + t2 ∧ v + t2 ≤ hi) (h2Q : lo ≤ v - t2 ∧ v - t2 ≤ hi)
    (hc : |c0| + |c1| + |c2| ≤ 1) :
    lo ≤ v + (c0 * t0 + c1 * t1 + c2 * t2) ∧ v + (c0 * t0 + c1 * t1 + c2 * t2) ≤ hi := by
  have key : ∀ H : S, |t0| ≤ H → |t1| ≤ H → |t2| ≤ H → |c0 * t0 + c1 * t1 + c2 * t2| ≤ H := by
    intro H a0 a1 a2
    have hH : 0 ≤ H := le_trans (abs_nonneg _) a0
    have b0 : |c0 * t0| ≤ |c0| * H := by
      rw [abs_mul]; exact mul_le_mul_of_nonneg_left a0 (abs_nonneg _)
    have b1 : |c1 * t1| ≤ |c1| * H := by
      rw [abs_mul]; exact mul_le_mul_of_nonneg_left a1 (abs_nonneg _)
    have b2 : |c2 * t2| ≤ |c2| * H := by
      rw [abs_mul]; exact mul_le_mul_of_nonneg_left a2 (abs_nonneg _)
    have hsum : (|c0| + |c1| + |c2|) * H ≤ 1 * H := mul_le_mul_of_nonneg_right hc hH
    calc |c0 * t0 + c1 * t1 + c2 * t2|
        ≤ |c0 * t0| + |c1 * t1| + |c2 * t2| := abs_add_three _ _ _
      _ ≤ H := by linarith
  have up := key (hi - v) (abs_le.mpr ⟨by linarith [h0Q.2], by linarith [h0P.2]⟩)
    (abs_le.mpr ⟨by linarith [h1Q.2], by linarith [h1P.2]⟩)
    (abs_le.mpr ⟨by linarith [h2Q.2], by linarith [h2P.2]⟩)
  have dn := key (v - lo) (abs_le.mpr ⟨by linarith [h0P.1], by linarith [h0Q.1]⟩)
    (abs_le.mpr ⟨by linarith [h1P.1], by linarith [h1Q.1]⟩)
    (abs_le.mpr ⟨by linarith [h2P.1], by linarith [h2Q.1]⟩)
  have up1 := (abs_le.mp up).2
  have dn1 := (abs_le.mp dn).1
  constructor <;> linarith

theorem AABB.contain_ellipsoidPoint (b : AABB S) (v : Vector3 S) (u : Variance3 S)
    (r c0 c1 c2 : S) (hb : ∀ q ∈ extremalPoints v u r, b.contain q)
    (hc : |c0| + |c1| + |c2| ≤ 1) : b.contain (ellipsoidPoint v u r c0 c1 c2) := by
  simp only [extremalPoints, List.mem_cons, List.mem_singleton, List.not_mem_nil, or_false,
    forall_eq_or_imp, forall_eq] at hb
  obtain ⟨a0, b0, a1, b1, a2, b2⟩ := hb
  cases b with
  | empty => exact absurd a0 (by simp [AABB.contain])
  | box lo hi =>
    simp only [AABB.contain, Vector3.add, Vector3.sub, Vector3.scale] at a0 b0 a1 b1 a2 b2
    simp only [AABB.contain, ellipsoidPoint, Vector3.add, Vector3.scale]
    have hx := interval_of_abs_sum a0.1 b0.1 a1.1 b1.1 a2.1 b2.1 hc
    have hy := interval_of_abs_sum a0.2.1 b0.2.1 a1.2.1 b1.2.1 a2.2.1 b2.2.1 hc
    have hz := interval_of_abs_sum a0.2.2 b0.2.2 a1.2.2 b1.2.2 a2.2.2 b2.2.2 hc
    refine ⟨?_, ?_, ?_⟩
    · convert hx using 2 <;> ring
    · convert hy using 2 <;> ring
    · convert hz using 2 <;> ring

end Ellipsoid

section MoreBoxClaims

variable {S BV : Type} [LinearOrderedCommRing S]

/-- The generic overload on the tilted example, confidence `1`. -/
theorem tilted_expand :
    BVHExpand aabbKind tiltedModel [tiltedUc] 1
      = some ⟨[⟨0, 0, 0⟩], [⟨0, 1, AABB.box ⟨-4 / 5, -4 / 5, -1⟩ ⟨4 / 5, 4 / 5, 1⟩⟩]⟩ := by
  have hown : owned tiltedModel.vertices [tiltedUc] (⟨0, 1, AABB.empty⟩ : BVNode (AABB ℚ))
      = some [(⟨0, 0, 0⟩, tiltedUc)] := rfl
  rw [BVHExpand_eq]
  simp only [tiltedModel, traverse, rebound, expandNode_eq] at hown ⊢
  rw [hown]
  simp only [Option.map_some', Option.some_bind, pointsOf, extremalPoints, tiltedUc,
    aabbKind, List.append_nil, List.foldl_cons, List.foldl_nil, AABB.incl, Vector3.add,
    Vector3.sub, Vector3.scale, Vector3.cwiseMin, Vector3.cwiseMax]
  norm_num

/-- C6, counterexample: a tree of one node that owns one vertex at the origin,
whose uncertainty has the orthonormal axis frame `(3/5, 4/5, 0)`,
`(-4/5, 3/5, 0)`, `(0, 0, 1)` and `sigma = (1, 1, 1)`, confidence `1`.  The
generic overload writes the box from `(-4/5, -4/5, -1)` to `(4/5, 4/5, 1)`; the
point `(1, 0, 0)` of the error ellipsoid, with coefficients `(3/5, -4/5, 0)`,
is not in it. -/
theorem ellipsoid_point_outside_box :
    BVHExpand aabbKind tiltedModel [tiltedUc] 1
        = some ⟨[⟨0, 0, 0⟩], [⟨0, 1, AABB.box ⟨-4 / 5, -4 / 5, -1⟩ ⟨4 / 5, 4 / 5, 1⟩⟩]⟩
      ∧ tiltedModel.bvs[0]? = some ⟨0, 1, AABB.empty⟩
      ∧ readAt tiltedModel.vertices (0 + (0 : Nat)) = some ⟨0, 0, 0⟩
      ∧ readAt [tiltedUc] (0 + (0 : Nat)) = some tiltedUc
      ∧ tiltedUc.axis.orthonormal
      ∧ (0 : ℚ) ≤ 1
      ∧ ((3 / 5) ^ 2 + (-4 / 5) ^ 2 + 0 ^ 2 : ℚ) ≤ 1
      ∧ ellipsoidPoint ⟨0, 0, 0⟩ tiltedUc 1 (3 / 5) (-4 / 5) 0 = ⟨1, 0, 0⟩
      ∧ ¬ (AABB.box ⟨-4 / 5, -4 / 5, -1⟩ ⟨4 / 5, 4 / 5, 1⟩ : AABB ℚ).contain
          (ellipsoidPoint ⟨0, 0, 0⟩ tiltedUc 1 (3 / 5) (-4 / 5) 0) := by
  have hpt : ellipsoidPoint ⟨0, 0, 0⟩ tiltedUc 1 (3 / 5) (-4 / 5) 0 = ⟨1, 0, 0⟩ := by
    simp only [ellipsoidPoint, tiltedUc, Vector3.add, Vector3.scale]
    norm_num
  refine ⟨?_, rfl, rfl, rfl, ?_, by norm_num, by norm_num, hpt, ?_⟩
  · exact tilted_expand
  · simp only [Matrix3.orthonormal, Vector3.dot, tiltedUc]
    norm_num
  · rw [hpt]
    simp only [AABB.contain]
    norm_num

/-- C6, amended: whenever the generic overload returns on a tree of
axis-aligned boxes, for every node and every position `j` of the node's owned
range the box written to the node contains every point
`v + sum_k c_k * (r * sigma_k) * axis_k` with `|c_0| + |c_1| + |c_2| ≤ 1`, that
is the convex hull of the six extremal points of the vertex (for every axis
frame and every confidence). -/
theorem contains_extremal_hull (model m1 : BVHModel S (AABB S)) (ucs : List (Variance3 S))
    (r : S) (h : BVHExpand aabbKind model ucs r = some m1) (i : Nat) (nd nd1 : BVNode (AABB S))
    (hn : model.bvs[i]? = some nd) (hn1 : m1.bvs[i]? = some nd1) (j : Nat)
    (hj : (j : Int) < nd.num_primitives) (c0 c1 c2 : S) (hc : |c0| + |c1| + |c2| ≤ 1) :
    ∃ v uc, readAt model.vertices (nd.first_primitive + j) = some v
      ∧ readAt ucs (nd.first_primitive + j) = some uc
      ∧ nd1.bv.contain (ellipsoidPoint v uc r c0 c1 c2) := by
  obtain ⟨l, hl, hbv, _⟩ := BVHExpand_node aabbKind model m1 ucs r h i nd nd1 hn hn1
  obtain ⟨v, uc, hv, huc, hmem⟩ := owned_mem model.vertices ucs nd l hl j hj
  refine ⟨v, uc, hv, huc, AABB.contain_ellipsoidPoint nd1.bv v uc r c0 c1 c2 ?_ hc⟩
  intro p hp
  rw [hbv]
  exact AABB.contain_foldl_mem _ _ _ ((mem_pointsOf r l p).mpr ⟨(v, uc), hmem, hp⟩)

/-- C8: the concrete scenario.  For a tree of one node that owns the single
vertex at the origin, with identity axes, `sigma = (1, 1, 1)` and confidence
`2`, the six extremal points (the points the generic overload includes, and the
buffer of the `OBB` and `RSS` overloads) are `(2,0,0)`, `(-2,0,0)`, `(0,2,0)`,
`(0,-2,0)`, `(0,0,2)`, `(0,0,-2)`, and the generic overload on axis-aligned
boxes writes the box from `(-2,-2,-2)` to `(2,2,2)`, whatever bound `bv0` the
node held. -/
theorem concrete_scenario (K : PointBV S BV) (old : BV) (bv0 : AABB S) :
    expandNode K [⟨0, 0, 0⟩] [⟨Matrix3.identity, ⟨1, 1, 1⟩⟩] 2 ⟨0, 1, old⟩
        = some (([⟨2, 0, 0⟩, ⟨-2, 0, 0⟩, ⟨0, 2, 0⟩, ⟨0, -2, 0⟩, ⟨0, 0, 2⟩, ⟨0, 0, -2⟩] :
            List (Vector3 S)).foldl K.incl K.init)
      ∧ bufferOBB [⟨0, 0, 0⟩] [⟨Matrix3.identity, ⟨1, 1, 1⟩⟩] 2 (⟨0, 1, old⟩ : BVNode BV)
        = some ([⟨2, 0, 0⟩, ⟨-2, 0, 0⟩, ⟨0, 2, 0⟩, ⟨0, -2, 0⟩, ⟨0, 0, 2⟩, ⟨0, 0, -2⟩] :
            List (Vector3 S))
      ∧ bufferRSS [⟨0, 0, 0⟩] [⟨Matrix3.identity, ⟨1, 1, 1⟩⟩] 2 (⟨0, 1, old⟩ : BVNode BV)
        = some ([⟨2, 0, 0⟩, ⟨-2, 0, 0⟩, ⟨0, 2, 0⟩, ⟨0, -2, 0⟩, ⟨0, 0, 2⟩, ⟨0, 0, -2⟩] :
            List (Vector3 S))
      ∧ BVHExpand aabbKind ⟨[⟨0, 0, 0⟩], [⟨0, 1, bv0⟩]⟩ [⟨Matrix3.identity, ⟨1, 1, 1⟩⟩] (2 : S)
        = some ⟨[⟨0, 0, 0⟩], [⟨0, 1, AABB.box ⟨-2, -2, -2⟩ ⟨2, 2, 2⟩⟩]⟩ := by
  have hpts : pointsOf (2 : S) [((⟨0, 0, 0⟩ : Vector3 S), (⟨Matrix3.identity, ⟨1, 1, 1⟩⟩ : Variance3 S))]
      = [⟨2, 0, 0⟩, ⟨-2, 0, 0⟩, ⟨0, 2, 0⟩, ⟨0, -2, 0⟩, ⟨0, 0, 2⟩, ⟨0, 0, -2⟩] := by
    simp [pointsOf, extremalPoints, Matrix3.identity, Vector3.add, Vector3.sub, Vector3.scale]
  have hown : ∀ old1 : BV, owned ([⟨0, 0, 0⟩] : List (Vector3 S)) [⟨Matrix3.identity, ⟨1, 1, 1⟩⟩]
      (⟨0, 1, old1⟩ : BVNode BV) = some [(⟨0, 0, 0⟩, ⟨Matrix3.identity, ⟨1, 1, 1⟩⟩)] := fun _ => rfl
  have hownB : owned ([⟨0, 0, 0⟩] : List (Vector3 S)) [⟨Matrix3.identity, ⟨1, 1, 1⟩⟩]
      (⟨0, 1, bv0⟩ : BVNode (AABB S)) = some [(⟨0, 0, 0⟩, ⟨Matrix3.identity, ⟨1, 1, 1⟩⟩)] := rfl
  refine ⟨?_, ?_, ?_, ?_⟩
  · rw [expandNode_eq, hown, Option.map_some', hpts]
  · rw [bufferOBB_eq, if_pos (by unfold INT_MAX; norm_num), hown, Option.map_some', hpts]
  · rw [bufferRSS_eq_bufferOBB, bufferOBB_eq, if_pos (by unfold INT_MAX; norm_num), hown,
      Option.map_some', hpts]
  · rw [BVHExpand_eq]
    simp only [traverse, rebound, expandNode_eq, hownB, Option.map_some', hpts, Option.some_bind,
      aabbKind, List.foldl_cons, List.foldl_nil, AABB.incl, Vector3.cwiseMin, Vector3.cwiseMax]
    norm_num

theorem sym_min_max_x (v t : S) :
    v - min (min (min (min (min (v + t) (v - t)) v) v) v) v
      = max (max (max (max (max (v + t) (v - t)) v) v) v) v - v := by
  rcases le_total 0 t with ht | ht
  · have hA : v - t ≤ v := by linarith
    have hB : v ≤ v + t := by linarith
    have hC : v - t ≤ v + t := by linarith
    simp only [min_eq_right hC, min_eq_left hA, max_eq_left hC, max_eq_left hB]
    ring
  · have hA : v ≤ v - t := by linarith
    have hB : v + t ≤ v := by linarith
    have hC : v + t ≤ v - t := by linarith
    simp only [min_eq_left hC, min_eq_left hB, max_eq_right hC, max_eq_left hA]
    ring

theorem sym_min_max_y (v t : S) :
    v - min (min (min (min (min v v) (v + t)) (v - t)) v) v
      = max (max (max (max (max v v) (v + t)) (v - t)) v) v - v := by
  rcases le_total 0 t with ht | ht
  · have hA : v - t ≤ v := by linarith
    have hB : v ≤ v + t := by linarith
    have hC : v - t ≤ v + t := by linarith
    simp only [min_self, max_self, min_eq_left hB, min_eq_right hA, min_eq_left hA,
      max_eq_right hB, max_eq_left hC, max_eq_left hB]
    ring
  · have hA : v ≤ v - t := by linarith
    have hB : v + t ≤ v := by linarith
    have hC : v + t ≤ v - t := by linarith
    simp only [min_self, max_self, min_eq_right hB, min_eq_left hC, min_eq_left hB,
      max_eq_left hB, max_eq_right hA, max_eq_left hA]
    ring

theorem sym_min_max_z (v t : S) :
    v - min (min (min (min (min v v) v) v) (v + t)) (v - t)
      = max (max (max (max (max v v) v) v) (v + t)) (v - t) - v := by
  rcases le_total 0 t with ht | ht
  · have hA : v - t ≤ v := by linarith
    have hB : v ≤ v + t := by linarith
    have hC : v - t ≤ v + t := by linarith
    simp only [min_self, max_self, min_eq_left hB, min_eq_right hA, max_eq_right hB,
      max_eq_left hC]
    ring
  · have hA : v ≤ v - t := by linarith
    have hB : v + t ≤ v := by linarith
    have hC : v + t ≤ v - t := by linarith
    simp only [min_self, max_self, min_eq_right hB, min_eq_left hC, max_eq_left hB,
      max_eq_right hA]
    ring

set_option maxRecDepth 100000 in
/-- C9, counterexample: with `Scalar = double`, a node that owns the one vertex
`(1, 1, 1)`, identity axes, the standard deviation 1 on every axis and the
confidence `0.1`, the generic overload writes the box from `fl(1 - 0.1)` to
`fl(1 + 0.1)` in every coordinate, and the two distances to the vertex differ:
`1 - min = 900719925474099 * 2 ^ (-53)` (0.09999999999999998) and
`max - 1 = 225179981368525 * 2 ^ (-51)` (0.10000000000000009). -/
theorem rounded_box_not_symmetric :
    BVHExpand aabbKind roundedModel roundedUcs F64.tenth
        = some ⟨[⟨1, 1, 1⟩], [⟨0, 1,
            AABB.box ⟨⟨8106479329266893, -53⟩, ⟨8106479329266893, -53⟩, ⟨8106479329266893, -53⟩⟩
              ⟨⟨2476979795053773, -51⟩, ⟨2476979795053773, -51⟩, ⟨2476979795053773, -51⟩⟩⟩]⟩
      ∧ (1 : F64) - ⟨8106479329266893, -53⟩ = ⟨900719925474099, -53⟩
      ∧ (⟨2476979795053773, -51⟩ : F64) - 1 = ⟨225179981368525, -51⟩
      ∧ (1 : F64) - ⟨8106479329266893, -53⟩ ≠ (⟨2476979795053773, -51⟩ : F64) - 1 := by
  decide

/-- C9, amended: axis symmetry in exact arithmetic.  When the operations of
`Scalar` are those of an ordered commutative ring (no rounding), then whenever
the generic overload returns on a tree of axis-aligned boxes, for every node
that owns exactly one vertex `v` whose uncertainty has identity axes and the
same sigma `s` on all three axes, and for every confidence `r`, the bound
written to the node is a box that is symmetric about `v` along each coordinate
axis: `v_c - min_c = max_c - v_c`. -/
theorem axis_symmetry (model m1 : BVHModel S (AABB S)) (ucs : List (Variance3 S))
    (r : S) (h : BVHExpand aabbKind model ucs r = some m1) (i : Nat) (nd nd1 : BVNode (AABB S))
    (hn : model.bvs[i]? = some nd) (hn1 : m1.bvs[i]? = some nd1)
    (hone : nd.num_primitives = 1) (v : Vector3 S) (s : S)
    (hv : readAt model.vertices nd.first_primitive = some v)
    (huc : readAt ucs nd.first_primitive = some ⟨Matrix3.identity, ⟨s, s, s⟩⟩) :
    ∃ lo hi, nd1.bv = AABB.box lo hi
      ∧ v.x - lo.x = hi.x - v.x ∧ v.y - lo.y = hi.y - v.y ∧ v.z - lo.z = hi.z - v.z := by
  obtain ⟨l, hl, hbv, _⟩ := BVHExpand_node aabbKind model m1 ucs r h i nd nd1 hn hn1
  have hl1 : l = [(v, ⟨Matrix3.identity, ⟨s, s, s⟩⟩)] := by
    have hlen := gather_length _ _ _ l hl
    obtain ⟨v1, uc1, hv1, huc1, hmem⟩ :=
      owned_mem model.vertices ucs nd l hl 0 (by rw [hone]; decide)
    simp only [Nat.cast_zero, add_zero] at hv1 huc1
    rw [hv, Option.some.injEq] at hv1
    rw [huc, Option.some.injEq] at huc1
    subst hv1 huc1
    cases l with
    | nil => simp at hmem
    | cons x rest =>
      have hrest : rest = [] := by
        simp only [hone, Int.toNat_one, List.length_cons, Nat.add_eq_right] at hlen
        exact List.length_eq_zero.mp hlen
      subst hrest
      simp only [List.mem_singleton] at hmem
      rw [hmem]
  subst hl1
  simp only [pointsOf, extremalPoints, Matrix3.identity, aabbKind, List.append_nil,
    List.foldl_cons, List.foldl_nil, AABB.incl, Vector3.add, Vector3.sub, Vector3.scale,
    Vector3.cwiseMin, Vector3.cwiseMax, one_mul, zero_mul, add_zero, sub_zero] at hbv
  refine ⟨_, _, hbv, ?_, ?_, ?_⟩
  · exact sym_min_max_x v.x (r * s)
  · exact sym_min_max_y v.y (r * s)
  · exact sym_min_max_z v.z (r * s)

end MoreBoxClaims

/-! ## The claims at sample inputs -/

section Witnesses

theorem sample_expand_zero :
    BVHExpand aabbKind sampleModel sampleUcs 0
      = some (sampleWith (AABB.box ⟨0, 0, -2⟩ ⟨4, 1, 0⟩) (AABB.box ⟨0, 0, 0⟩ ⟨0, 0, 0⟩)
          (AABB.box ⟨4, 1, -2⟩ ⟨4, 1, -2⟩)) := by decide

theorem sample_expand_one :
    BVHExpand aabbKind sampleModel sampleUcs 1
      = some (sampleWith (AABB.box ⟨-1, -1, -3⟩ ⟨4, 3, 1⟩) (AABB.box ⟨-1, -1, -1⟩ ⟨1, 1, 1⟩)
          (AABB.box ⟨4, -1, -3⟩ ⟨4, 3, -1⟩)) := by decide

theorem sample_expand_two :
    BVHExpand aabbKind sampleModel sampleUcs 2
      = some (sampleWith (AABB.box ⟨-2, -3, -4⟩ ⟨4, 5, 2⟩) (AABB.box ⟨-2, -2, -2⟩ ⟨2, 2, 2⟩)
          (AABB.box ⟨4, -3, -4⟩ ⟨4, 5, 0⟩)) := by decide

theorem sample_expand_two_obb :
    BVHExpandOBB sampleFit sampleModel sampleUcs 2
      = some (sampleWith (AABB.box ⟨-2, -3, -4⟩ ⟨4, 5, 2⟩) (AABB.box ⟨-2, -2, -2⟩ ⟨2, 2, 2⟩)
          (AABB.box ⟨4, -3, -4⟩ ⟨4, 5, 0⟩)) := by decide

theorem sample_expand_two_rss :
    BVHExpandRSS sampleFit sampleModel sampleUcs 2
      = some (sampleWith (AABB.box ⟨-2, -3, -4⟩ ⟨4, 5, 2⟩) (AABB.box ⟨-2, -2, -2⟩ ⟨2, 2, 2⟩)
          (AABB.box ⟨4, -3, -4⟩ ⟨4, 5, 0⟩)) := by decide

theorem sample_agree_outside (idx : Int)
    (h : ¬ (⟨0, 1, AABB.empty⟩ : BVNode (AABB ℤ)).owns idx) :
    readAt sampleUcs idx = readAt sampleUcsChanged idx := by
  unfold readAt
  by_cases h0 : 0 ≤ idx
  · obtain ⟨n, rfl⟩ := Int.eq_ofNat_of_zero_le h0
    cases n with
    | zero => exact absurd ⟨by decide, by decide⟩ h
    | succ n => simp [sampleUcs, sampleUcsChanged]
  · simp [h0]

theorem sample_disjoint (idx : Int)
    (h : (⟨1, 1, AABB.empty⟩ : BVNode (AABB ℤ)).owns idx) :
    ¬ (⟨0, 1, AABB.empty⟩ : BVNode (AABB ℤ)).owns idx := by
  simp only [BVNode.owns] at h ⊢
  omega

/-- C2 at a sample input: the sample tree with and without previous bounds. -/
theorem independent_of_previous_bound_witness :
    sampleModel.vertices
        = (sampleWith (AABB.box ⟨7, 7, 7⟩ ⟨9, 9, 9⟩) AABB.empty (AABB.box ⟨0, 0, 0⟩ ⟨1, 1, 1⟩)).vertices
      ∧ sampleModel.bvs.map BVNode.range
        = (sampleWith (AABB.box ⟨7, 7, 7⟩ ⟨9, 9, 9⟩) AABB.empty
            (AABB.box ⟨0, 0, 0⟩ ⟨1, 1, 1⟩)).bvs.map BVNode.range
      ∧ BVHExpand aabbKind sampleModel sampleUcs 2
        = BVHExpand aabbKind
            (sampleWith (AABB.box ⟨7, 7, 7⟩ ⟨9, 9, 9⟩) AABB.empty (AABB.box ⟨0, 0, 0⟩ ⟨1, 1, 1⟩))
            sampleUcs 2
      ∧ BVHExpandOBB sampleFit sampleModel sampleUcs 2
        = BVHExpandOBB sampleFit
            (sampleWith (AABB.box ⟨7, 7, 7⟩ ⟨9, 9, 9⟩) AABB.empty (AABB.box ⟨0, 0, 0⟩ ⟨1, 1, 1⟩))
            sampleUcs 2 :=
  ⟨rfl, rfl,
    (independent_of_previous_bound aabbKind sampleFit sampleModel
      (sampleWith (AABB.box ⟨7, 7, 7⟩ ⟨9, 9, 9⟩) AABB.empty (AABB.box ⟨0, 0, 0⟩ ⟨1, 1, 1⟩))
      sampleUcs 2 rfl rfl).1.1,
    (independent_of_previous_bound aabbKind sampleFit sampleModel
      (sampleWith (AABB.box ⟨7, 7, 7⟩ ⟨9, 9, 9⟩) AABB.empty (AABB.box ⟨0, 0, 0⟩ ⟨1, 1, 1⟩))
      sampleUcs 2 rfl rfl).2.1.1⟩

/-- C3 at a sample input: the first node of the sample tree, confidence `0`. -/
theorem zero_confidence_identity_witness :
    BVHExpand aabbKind sampleModel sampleUcs 0
        = some (sampleWith (AABB.box ⟨0, 0, -2⟩ ⟨4, 1, 0⟩) (AABB.box ⟨0, 0, 0⟩ ⟨0, 0, 0⟩)
            (AABB.box ⟨4, 1, -2⟩ ⟨4, 1, -2⟩))
      ∧ ∃ vs, ownedVertices sampleModel.vertices (⟨0, 2, AABB.empty⟩ : BVNode (AABB ℤ)) = some vs
          ∧ AABB.box ⟨0, 0, -2⟩ ⟨4, 1, 0⟩ = vs.foldl AABB.incl AABB.empty :=
  ⟨sample_expand_zero,
    (zero_confidence_identity aabbKind (⟨0, 0, 0⟩ : Vector3 ℤ) ⟨Matrix3.identity, ⟨1, 1, 1⟩⟩
      AABB.empty sampleModel _ sampleUcs sample_expand_zero 0 ⟨0, 2, AABB.empty⟩
      ⟨0, 2, AABB.box ⟨0, 0, -2⟩ ⟨4, 1, 0⟩⟩ rfl rfl).2.2⟩

/-- C4 at a sample input: the sample tree with confidences `1` and `2`. -/
theorem monotonic_growth_witness :
    (0 : ℤ) ≤ 1 ∧ (1 : ℤ) < 2
      ∧ ∃ m2, BVHExpand aabbKind sampleModel sampleUcs 2 = some m2
          ∧ ∀ (i : Nat) (nd1 nd2 : BVNode (AABB ℤ)),
              (sampleWith (AABB.box ⟨-1, -1, -3⟩ ⟨4, 3, 1⟩) (AABB.box ⟨-1, -1, -1⟩ ⟨1, 1, 1⟩)
                (AABB.box ⟨4, -1, -3⟩ ⟨4, 3, -1⟩)).bvs[i]? = some nd1 →
              m2.bvs[i]? = some nd2 → nd2.bv.containBox nd1.bv :=
  ⟨by decide, by decide,
    monotonic_growth sampleModel _ sampleUcs 1 2 (by decide) (by decide) sample_expand_one⟩

/-- C5 at a sample input: the second vertex of the first node of the sample
tree, confidence `2`. -/
theorem contains_extremal_points_witness :
    ((1 : Nat) : Int) < (⟨0, 2, AABB.empty⟩ : BVNode (AABB ℤ)).num_primitives
      ∧ ∃ v uc, readAt sampleModel.vertices (0 + (1 : Nat)) = some v
          ∧ readAt sampleUcs (0 + (1 : Nat)) = some uc
          ∧ (∀ p ∈ extremalPoints v uc 2, (AABB.box ⟨-2, -3, -4⟩ ⟨4, 5, 2⟩ : AABB ℤ).contain p)
          ∧ (AABB.box ⟨-2, -3, -4⟩ ⟨4, 5, 2⟩ : AABB ℤ).contain v :=
  ⟨by decide,
    contains_extremal_points sampleModel _ sampleUcs 2 sample_expand_two 0 ⟨0, 2, AABB.empty⟩
      ⟨0, 2, AABB.box ⟨-2, -3, -4⟩ ⟨4, 5, 2⟩⟩ rfl rfl 1 (by decide)⟩

/-- C6 (amended) at a sample input: the tilted example, confidence `1`, and the
point with coefficients `(1/2, -1/2, 0)`. -/
theorem contains_extremal_hull_witness :
    ((0 : Nat) : Int) < (⟨0, 1, AABB.empty⟩ : BVNode (AABB ℚ)).num_primitives
      ∧ |(1 / 2 : ℚ)| + |(-1 / 2 : ℚ)| + |(0 : ℚ)| ≤ 1
      ∧ ∃ v uc, readAt tiltedModel.vertices (0 + (0 : Nat)) = some v
          ∧ readAt [tiltedUc] (0 + (0 : Nat)) = some uc
          ∧ (AABB.box ⟨-4 / 5, -4 / 5, -1⟩ ⟨4 / 5, 4 / 5, 1⟩ : AABB ℚ).contain
              (ellipsoidPoint v uc 1 (1 / 2) (-1 / 2) 0) :=
  ⟨by decide, by norm_num [abs_of_nonneg, abs_of_neg],
    contains_extremal_hull tiltedModel _ [tiltedUc] 1 tilted_expand 0 ⟨0, 1, AABB.empty⟩
      ⟨0, 1, AABB.box ⟨-4 / 5, -4 / 5, -1⟩ ⟨4 / 5, 4 / 5, 1⟩⟩ rfl rfl 0 (by decide)
      (1 / 2) (-1 / 2) 0 (by norm_num [abs_of_nonneg, abs_of_neg])⟩

/-- C7 at a sample input: the second and the third node of the sample tree, and
an uncertainty array changed at the vertex the second node owns. -/
theorem node_isolation_witness :
    sampleModel.bvs[2]? = some ⟨1, 1, AABB.empty⟩
      ∧ (∀ idx, ¬ (⟨0, 1, AABB.empty⟩ : BVNode (AABB ℤ)).owns idx →
          readAt sampleUcs idx = readAt sampleUcsChanged idx)
      ∧ (∀ idx, (⟨1, 1, AABB.empty⟩ : BVNode (AABB ℤ)).owns idx →
          ¬ (⟨0, 1, AABB.empty⟩ : BVNode (AABB ℤ)).owns idx)
      ∧ expandNode aabbKind sampleModel.vertices sampleUcs 2 ⟨1, 1, AABB.empty⟩
        = expandNode aabbKind sampleModel.vertices sampleUcsChanged 2 ⟨1, 1, AABB.empty⟩
      ∧ fitNodeOBB sampleFit sampleModel.vertices sampleUcs 2 ⟨1, 1, AABB.empty⟩
        = fitNodeOBB sampleFit sampleModel.vertices sampleUcsChanged 2 ⟨1, 1, AABB.empty⟩
      ∧ fitNodeRSS sampleFit sampleModel.vertices sampleUcs 2 ⟨1, 1, AABB.empty⟩
        = fitNodeRSS sampleFit sampleModel.vertices sampleUcsChanged 2 ⟨1, 1, AABB.empty⟩ :=
  ⟨rfl, sample_agree_outside, sample_disjoint,
    (node_isolation aabbKind sampleFit sampleModel sampleUcs sampleUcsChanged 2
      ⟨0, 1, AABB.empty⟩ ⟨1, 1, AABB.empty⟩ 2 rfl sample_agree_outside sample_disjoint).1.1,
    (node_isolation aabbKind sampleFit sampleModel sampleUcs sampleUcsChanged 2
      ⟨0, 1, AABB.empty⟩ ⟨1, 1, AABB.empty⟩ 2 rfl sample_agree_outside sample_disjoint).2.1.1,
    (node_isolation aabbKind sampleFit sampleModel sampleUcs sampleUcsChanged 2
      ⟨0, 1, AABB.empty⟩ ⟨1, 1, AABB.empty⟩ 2 rfl sample_agree_outside sample_disjoint).2.2.1⟩

/-- C9 at a sample input: the second node of the sample tree, which owns the
first vertex alone, confidence `2`. -/
theorem axis_symmetry_witness :
    (⟨0, 1, AABB.empty⟩ : BVNode (AABB ℤ)).num_primitives = 1
      ∧ readAt sampleModel.vertices 0 = some ⟨0, 0, 0⟩
      ∧ readAt sampleUcs 0 = some ⟨Matrix3.identity, ⟨1, 1, 1⟩⟩
      ∧ ∃ lo hi : Vector3 ℤ, AABB.box ⟨-2, -2, -2⟩ ⟨2, 2, 2⟩ = AABB.box lo hi
          ∧ 0 - lo.x = hi.x - 0 ∧ 0 - lo.y = hi.y - 0 ∧ 0 - lo.z = hi.z - 0 :=
  ⟨rfl, rfl, rfl,
    axis_symmetry sampleModel _ sampleUcs 2 sample_expand_two 1 ⟨0, 1, AABB.empty⟩
      ⟨0, 1, AABB.box ⟨-2, -2, -2⟩ ⟨2, 2, 2⟩⟩ rfl rfl rfl ⟨0, 0, 0⟩ 1 rfl rfl⟩

/-- C10 at a sample input: the three overloads on the sample tree, confidence
`2`. -/
theorem frame_only_bounds_change_witness :
    (BVHExpand aabbKind sampleModel sampleUcs 2
        = some (sampleWith (AABB.box ⟨-2, -3, -4⟩ ⟨4, 5, 2⟩) (AABB.box ⟨-2, -2, -2⟩ ⟨2, 2, 2⟩)
            (AABB.box ⟨4, -3, -4⟩ ⟨4, 5, 0⟩))
      ∧ BVHExpandOBB sampleFit sampleModel sampleUcs 2
        = some (sampleWith (AABB.box ⟨-2, -3, -4⟩ ⟨4, 5, 2⟩) (AABB.box ⟨-2, -2, -2⟩ ⟨2, 2, 2⟩)
            (AABB.box ⟨4, -3, -4⟩ ⟨4, 5, 0⟩))
      ∧ BVHExpandRSS sampleFit sampleModel sampleUcs 2
        = some (sampleWith (AABB.box ⟨-2, -3, -4⟩ ⟨4, 5, 2⟩) (AABB.box ⟨-2, -2, -2⟩ ⟨2, 2, 2⟩)
            (AABB.box ⟨4, -3, -4⟩ ⟨4, 5, 0⟩)))
      ∧ (sampleWith (AABB.box ⟨-2, -3, -4⟩ ⟨4, 5, 2⟩) (AABB.box ⟨-2, -2, -2⟩ ⟨2, 2, 2⟩)
            (AABB.box ⟨4, -3, -4⟩ ⟨4, 5, 0⟩)).vertices = sampleModel.vertices
      ∧ (sampleWith (AABB.box ⟨-2, -3, -4⟩ ⟨4, 5, 2⟩) (AABB.box ⟨-2, -2, -2⟩ ⟨2, 2, 2⟩)
            (AABB.box ⟨4, -3, -4⟩ ⟨4, 5, 0⟩)).num_bvs = sampleModel.num_bvs
      ∧ (sampleWith (AABB.box ⟨-2, -3, -4⟩ ⟨4, 5, 2⟩) (AABB.box ⟨-2, -2, -2⟩ ⟨2, 2, 2⟩)
            (AABB.box ⟨4, -3, -4⟩ ⟨4, 5, 0⟩)).bvs.map BVNode.range
          = sampleModel.bvs.map BVNode.range :=
  ⟨⟨sample_expand_two, sample_expand_two_obb, sample_expand_two_rss⟩,
    (frame_only_bounds_change aabbKind sampleFit sampleModel _ sampleUcs 2
      (Or.inl sample_expand_two)).1,
    (frame_only_bounds_change aabbKind sampleFit sampleModel _ sampleUcs 2
      (Or.inr (Or.inl sample_expand_two_obb))).2.1,
    (frame_only_bounds_change aabbKind sampleFit sampleModel _ sampleUcs 2
      (Or.inr (Or.inr sample_expand_two_rss))).2.2⟩

end Witnesses

/-! ## Negative confidence, empty nodes and order within a node -/

section Mirror

variable {S BV : Type} [LinearOrderedCommRing S]

theorem AABB.incl_comm (b : AABB S) (p q : Vector3 S) :
    (b.incl p).incl q = (b.incl q).incl p := by
  cases b with
  | empty =>
    simp only [AABB.incl, Vector3.cwiseMin, Vector3.cwiseMax, min_comm p.x, min_comm p.y,
      min_comm p.z, max_comm p.x, max_comm p.y, max_comm p.z]
  | box lo hi =>
    simp only [AABB.incl, Vector3.cwiseMin, Vector3.cwiseMax, min_right_comm _ p.x,
      min_right_comm _ p.y, min_right_comm _ p.z, sup_right_comm _ p.x, sup_right_comm _ p.y,
      sup_right_comm _ p.z]

/-- C16: order independence within a node.  For a bound kind whose point
inclusion is order-insensitive, whenever the generic overload returns, the
bound written to a node is the fold of point inclusion, from the
default-constructed bound, over any rearrangement of the `6 * n` extremal
points of the `n` vertices the node owns. -/
theorem order_independent_within_node (K : PointBV S BV)
    (hcomm : ∀ b p q, K.incl (K.incl b p) q = K.incl (K.incl b q) p)
    (model m1 : BVHModel S BV) (ucs : List (Variance3 S)) (r : S)
    (h : BVHExpand K model ucs r = some m1) (i : Nat) (nd nd1 : BVNode BV)
    (hn : model.bvs[i]? = some nd) (hn1 : m1.bvs[i]? = some nd1) :
    ∃ l, owned model.vertices ucs nd = some l
      ∧ (pointsOf r l).length = 6 * nd.num_primitives.toNat
      ∧ ∀ ps : List (Vector3 S), ps.Perm (pointsOf r l) → nd1.bv = ps.foldl K.incl K.init := by
  obtain ⟨l, hl, hbv, _⟩ := BVHExpand_node K model m1 ucs r h i nd nd1 hn hn1
  refine ⟨l, hl, ?_, ?_⟩
  · have hlen := gather_length _ _ _ l hl
    rw [← hlen]
    clear hl hbv hlen
    induction l with
    | nil => rfl
    | cons vu l ih => simp [pointsOf, extremalPoints, ih]; ring
  · intro ps hps
    rw [hbv]
    exact (hps.symm.foldl_eq' (fun x _ y _ z => hcomm z x y) _)

end Mirror

/-! ## Index safety and the common point sequence -/

section Safety

variable {S BV : Type}

theorem readAt_isSome {α : Type} (xs : List α) (i : Int) (h0 : 0 ≤ i) (hlt : i < xs.length) :
    (readAt xs i).isSome := by
  unfold readAt
  rw [if_pos h0]
  have : i.toNat < xs.length := by omega
  simp [this]

theorem gather_isSome {β : Type} (f : Nat → Option β) (count start : Nat)
    (h : ∀ j, start ≤ j → j < start + count → (f j).isSome) :
    (gather f start count).isSome := by
  induction count generalizing start with
  | zero => rfl
  | succ n ih =>
    have h1 := h start (Nat.le_refl _) (by omega)
    have h2 := ih (start + 1) (fun j ha hb => h j (by omega) (by omega))
    obtain ⟨b, hb⟩ := Option.isSome_iff_exists.mp h1
    obtain ⟨l, hl⟩ := Option.isSome_iff_exists.mp h2
    simp [gather, hb, hl]

theorem owned_isSome (vertices : List (Vector3 S)) (ucs : List (Variance3 S)) (nd : BVNode BV)
    (h : nd.inBounds vertices.length ucs.length)
    (hidx : nd.first_primitive + nd.num_primitives ≤ INT_MAX + 1) :
    (owned vertices ucs nd).isSome := by
  obtain ⟨h0, _, hv, hu⟩ := h
  apply gather_isSome
  intro j _ hj
  have h1 := readAt_isSome ucs (nd.first_primitive + j) (by omega) (by omega)
  have h2 := readAt_isSome vertices (nd.first_primitive + j) (by omega) (by omega)
  obtain ⟨uc, huc⟩ := Option.isSome_iff_exists.mp h1
  obtain ⟨v, hv1⟩ := Option.isSome_iff_exists.mp h2
  have hr : INT_MIN ≤ nd.first_primitive + j ∧ nd.first_primitive + j ≤ INT_MAX := by
    unfold INT_MIN
    constructor <;> omega
  rw [(ownedAt_eq_some vertices ucs nd j v uc).mpr ⟨hr, huc, hv1⟩]
  rfl

theorem owned_index_range (vertices : List (Vector3 S)) (ucs : List (Variance3 S))
    (nd : BVNode BV) (h : (owned vertices ucs nd).isSome) (j : Nat)
    (hj : (j : Int) < nd.num_primitives) : nd.first_primitive + j ≤ INT_MAX := by
  obtain ⟨l, hl⟩ := Option.isSome_iff_exists.mp h
  have hg := gather_getElem? _ _ 0 l hl j (by omega)
  rw [Nat.zero_add] at hg
  obtain ⟨vu, hvu⟩ := Option.isSome_iff_exists.mp hg.2
  exact ((ownedAt_eq_some vertices ucs nd j vu.1 vu.2).mp hvu).1.2

end Safety

section SafetyClaims

variable {S BV : Type} [LinearOrderedCommRing S]

/-- The `OBB` overload returns exactly when every node has a count that is not
negative, a buffer size in the range of `int` and an owned range that can be
read from both arrays. -/
theorem BVHExpandOBB_isSome (F : FitBV S BV) (model : BVHModel S BV) (ucs : List (Variance3 S))
    (r : S) :
    (BVHExpandOBB F model ucs r).isSome
      ↔ ∀ nd ∈ model.bvs, (0 ≤ nd.num_primitives ∧ nd.num_primitives * 6 ≤ INT_MAX)
          ∧ (owned model.vertices ucs nd).isSome := by
  rw [BVHExpandOBB_eq, Option.isSome_map', traverse_isSome]
  refine forall₂_congr fun nd _ => ?_
  simp only [rebound, fitNodeOBB_eq, Option.isSome_map']
  by_cases hn : 0 ≤ nd.num_primitives ∧ nd.num_primitives * 6 ≤ INT_MAX
  · simp [hn]
  · simp [hn]

theorem BVHExpandRSS_eq_BVHExpandOBB (F : FitBV S BV) (model : BVHModel S BV)
    (ucs : List (Variance3 S)) (r : S) :
    BVHExpandRSS F model ucs r = BVHExpandOBB F model ucs r := rfl

theorem tailModel_inBounds (n m : Nat) (h : m ≤ n) :
    ∀ nd ∈ (tailModel n m).bvs,
      nd.inBounds (tailModel n m).vertices.length (unitUcs n).length := by
  intro nd hnd
  have hnd1 : nd = ⟨(n : Int) - m, m, AABB.empty⟩ := List.mem_singleton.mp hnd
  subst hnd1
  have h1 : (tailModel n m).vertices.length = n := List.length_replicate _ _
  have h2 : (unitUcs n).length = n := List.length_replicate _ _
  rw [h1, h2]
  unfold BVNode.inBounds
  refine ⟨?_, ?_, ?_, ?_⟩ <;> simp only <;> omega

theorem tailModel_size_overflow (n m : Nat) (r : ℤ) (h : INT_MAX < (m : Int) * 6) :
    BVHExpandOBB sampleFit (tailModel n m) (unitUcs n) r = none := by
  apply Option.not_isSome_iff_eq_none.mp
  intro h1
  have h2 := ((BVHExpandOBB_isSome _ _ _ _).mp h1 ⟨(n : Int) - m, m, AABB.empty⟩
    (List.mem_singleton_self _)).1.2
  have h3 : (m : Int) * 6 ≤ INT_MAX := h2
  omega

theorem tailModel_index_overflow (n m j : Nat) (r : ℤ) (hj : j < m)
    (h : INT_MAX < (n : Int) - m + j) :
    BVHExpand aabbKind (tailModel n m) (unitUcs n) r = none
      ∧ BVHExpandOBB sampleFit (tailModel n m) (unitUcs n) r = none := by
  have hown : ¬ (owned (tailModel n m).vertices (unitUcs n)
      (⟨(n : Int) - m, m, AABB.empty⟩ : BVNode (AABB ℤ))).isSome := by
    intro h1
    have h2 := owned_index_range _ _ _ h1 j (by show (j : Int) < (m : Int); omega)
    have h3 : (n : Int) - m + j ≤ INT_MAX := h2
    omega
  constructor
  · apply Option.not_isSome_iff_eq_none.mp
    intro h1
    exact hown ((BVHExpand_isSome _ _ _ _).mp h1 _ (List.mem_singleton_self _))
  · apply Option.not_isSome_iff_eq_none.mp
    intro h1
    exact hown ((BVHExpandOBB_isSome _ _ _ _).mp h1 _ (List.mem_singleton_self _)).2

/-- C13, counterexample: two trees that meet the precondition of the claim.
The node of the first owns all 357913942 vertices, so the buffer size
`num_primitives * 6 = 2147483652` of the `OBB` and `RSS` overloads is above
`INT_MAX`; the node of the second owns the last two of 2147483649 vertices,
those with the indices `INT_MAX` and `INT_MAX + 1`, so the index
`first_primitive + 1` is above `INT_MAX`.  In both cases an expression of type
`int` overflows and the overload has no result. -/
theorem int_overflow_within_precondition :
    ((∀ nd ∈ (tailModel 357913942 357913942).bvs,
          nd.inBounds (tailModel 357913942 357913942).vertices.length
            (unitUcs 357913942).length)
        ∧ asInt ((357913942 : Int) * 6) = none
        ∧ BVHExpandOBB sampleFit (tailModel 357913942 357913942) (unitUcs 357913942) 1 = none
        ∧ BVHExpandRSS sampleFit (tailModel 357913942 357913942) (unitUcs 357913942) 1 = none)
      ∧ ((∀ nd ∈ (tailModel 2147483649 2).bvs,
          nd.inBounds (tailModel 2147483649 2).vertices.length (unitUcs 2147483649).length)
        ∧ asInt ((2147483647 : Int) + ((1 : Nat) : Int)) = none
        ∧ BVHExpand aabbKind (tailModel 2147483649 2) (unitUcs 2147483649) 1 = none
        ∧ BVHExpandOBB sampleFit (tailModel 2147483649 2) (unitUcs 2147483649) 1 = none
        ∧ BVHExpandRSS sampleFit (tailModel 2147483649 2) (unitUcs 2147483649) 1 = none) := by
  have h1 := tailModel_size_overflow 357913942 357913942 1 (by unfold INT_MAX; norm_num)
  have h2 := tailModel_index_overflow 2147483649 2 1 1 (by norm_num)
    (by unfold INT_MAX; norm_num)
  exact ⟨⟨tailModel_inBounds _ _ (Nat.le_refl _),
      asInt_of_not_range (by unfold INT_MAX; norm_num), h1, h1⟩,
    ⟨tailModel_inBounds _ _ (by norm_num),
      asInt_of_not_range (by unfold INT_MAX; norm_num), h2.1, h2.2, h2.2⟩⟩

/-- C13, amended: index safety under the caller's precondition and the range of
`int`.  Let every node have `first_primitive ≥ 0`, `num_primitives ≥ 0` and
`first_primitive + num_primitives` at most the length of the vertex array and
of the uncertainty array, and moreover `first_primitive + num_primitives ≤
INT_MAX + 1`.  Then for every node and every `j < num_primitives` the index
`first_primitive + j` is a value of `int` and the reads of
`vertices[first_primitive + j]` and `ucs[first_primitive + j]` are in bounds,
and the generic overload returns a tree.  If moreover `6 * num_primitives ≤
INT_MAX` for every node, then the buffer of the `OBB` and `RSS` overloads is
allocated with `6 * num_primitives` cells, the write indices `6 * j + 2 * k`
and `6 * j + 2 * k + 1`, `k < 3`, are values of `int` below its length, and
these two overloads return a tree as well. -/
theorem index_safety (K : PointBV S BV) (F : FitBV S BV) (model : BVHModel S BV)
    (ucs : List (Variance3 S)) (r : S)
    (hpre : ∀ nd ∈ model.bvs, nd.inBounds model.vertices.length ucs.length)
    (hidx : ∀ nd ∈ model.bvs, nd.first_primitive + nd.num_primitives ≤ INT_MAX + 1) :
    (∀ nd ∈ model.bvs, ∀ j : Nat, (j : Int) < nd.num_primitives →
        asInt (nd.first_primitive + j) = some (nd.first_primitive + j)
          ∧ (readAt model.vertices (nd.first_primitive + j)).isSome
          ∧ (readAt ucs (nd.first_primitive + j)).isSome)
      ∧ (BVHExpand K model ucs r).isSome
      ∧ ((∀ nd ∈ model.bvs, nd.num_primitives * 6 ≤ INT_MAX) →
          (∀ nd ∈ model.bvs, ∃ vs : List (Option (Vector3 S)),
              (asInt (nd.num_primitives * 6)).bind newArray = some vs
              ∧ vs.length = 6 * nd.num_primitives.toNat
              ∧ ∀ j k : Nat, (j : Int) < nd.num_primitives → k < 3 →
                  asInt (6 * j + 2 * k) = some (6 * j + 2 * k)
                    ∧ asInt (6 * j + 2 * k + 1) = some (6 * j + 2 * k + 1)
                    ∧ 6 * j + 2 * k < vs.length ∧ 6 * j + 2 * k + 1 < vs.length)
            ∧ (BVHExpandOBB F model ucs r).isSome
            ∧ (BVHExpandRSS F model ucs r).isSome) := by
  refine ⟨?_, ?_, ?_⟩
  · intro nd hnd j hj
    obtain ⟨h0, hn, hv, hu⟩ := hpre nd hnd
    have hi1 := hidx nd hnd
    exact ⟨asInt_of_range (by unfold INT_MIN; omega) (by omega),
      readAt_isSome _ _ (by omega) (by omega), readAt_isSome _ _ (by omega) (by omega)⟩
  · exact (BVHExpand_isSome K model ucs r).mpr fun nd hnd =>
      owned_isSome _ _ _ (hpre nd hnd) (hidx nd hnd)
  · intro hsize
    have hobb : (BVHExpandOBB F model ucs r).isSome :=
      (BVHExpandOBB_isSome F model ucs r).mpr fun nd hnd =>
        ⟨⟨(hpre nd hnd).2.1, hsize nd hnd⟩, owned_isSome _ _ _ (hpre nd hnd) (hidx nd hnd)⟩
    refine ⟨?_, hobb, ?_⟩
    · intro nd hnd
      obtain ⟨h0, hn, hv, hu⟩ := hpre nd hnd
      have hi2 := hsize nd hnd
      refine ⟨List.replicate (nd.num_primitives * 6).toNat none, ?_, ?_, ?_⟩
      · rw [asInt_of_range (by unfold INT_MIN; omega) hi2]
        simp only [Option.some_bind]
        unfold newArray
        rw [if_pos (by omega)]
      · rw [List.length_replicate]; omega
      · intro j k hj hk
        rw [List.length_replicate]
        exact ⟨asInt_of_range (by unfold INT_MIN; omega) (by omega),
          asInt_of_range (by unfold INT_MIN; omega) (by omega), by omega, by omega⟩
    · rw [BVHExpandRSS_eq_BVHExpandOBB]; exact hobb

/-- C18: the three overloads share one point sequence.  For every node the
`RSS` overload builds the same buffer as the `OBB` overload; whenever that
buffer exists it is the list `pointsOf r` of the owned vertices, the generic
overload folds exactly this list, in this order, into the default-constructed
bound, and the `OBB` and `RSS` overloads apply `fit` to it.  The generic
overload is always the fold over that list, and the buffer is that list
whenever the count is not negative and the buffer size `6 * n` is a value of
`int`. -/
theorem shared_point_sequence (K : PointBV S BV) (F : FitBV S BV) (vertices : List (Vector3 S))
    (ucs : List (Variance3 S)) (r : S) (nd : BVNode BV) :
    bufferRSS vertices ucs r nd = bufferOBB vertices ucs r nd
      ∧ (∀ ps, bufferOBB vertices ucs r nd = some ps →
          (owned vertices ucs nd).map (pointsOf r) = some ps
            ∧ expandNode K vertices ucs r nd = some (ps.foldl K.incl K.init)
            ∧ fitNodeOBB F vertices ucs r nd = some (F.fit ps (nd.num_primitives * 6) F.init)
            ∧ fitNodeRSS F vertices ucs r nd = some (F.fit ps (nd.num_primitives * 6) F.init))
      ∧ expandNode K vertices ucs r nd
          = ((owned vertices ucs nd).map (pointsOf r)).map (fun ps => ps.foldl K.incl K.init)
      ∧ (0 ≤ nd.num_primitives → nd.num_primitives * 6 ≤ INT_MAX →
          bufferOBB vertices ucs r nd = (owned vertices ucs nd).map (pointsOf r)) := by
  refine ⟨rfl, ?_, ?_, ?_⟩
  · intro ps hps
    have hps0 := hps
    rw [bufferOBB_eq] at hps
    by_cases hn : 0 ≤ nd.num_primitives ∧ nd.num_primitives * 6 ≤ INT_MAX
    · have hfit : fitNodeOBB F vertices ucs r nd
          = some (F.fit ps (nd.num_primitives * 6) F.init) := by
        unfold fitNodeOBB
        rw [hps0, asInt_of_range (by unfold INT_MIN; omega) hn.2]
        rfl
      rw [if_pos hn] at hps
      refine ⟨hps, ?_, hfit, hfit⟩
      rw [expandNode_eq]
      cases hl : owned vertices ucs nd with
      | none => simp [hl] at hps
      | some l =>
        simp only [hl, Option.map_some', Option.some.injEq] at hps
        subst hps
        rfl
    · simp [hn] at hps
  · rw [expandNode_eq, Option.map_map]
    rfl
  · intro hn hsize
    rw [bufferOBB_eq, if_pos ⟨hn, hsize⟩]

end SafetyClaims

/-! ## Layout of the buffer of the fit-based overloads -/

section Layout

variable {S BV : Type} [LinearOrderedCommRing S]

theorem writeSeq_append {α : Type} (ws1 ws2 : List (Nat × α)) (vs : List (Option α)) :
    writeSeq (ws1 ++ ws2) vs = (writeSeq ws1 vs).bind (writeSeq ws2) := by
  induction ws1 generalizing vs with
  | nil => rfl
  | cons w ws1 ih =>
    simp only [List.cons_append, writeSeq]
    cases writeAt vs w.1 w.2 with
    | none => rfl
    | some vs1 => simp [ih]

theorem forLoop_fillAxisOBB_writeSeq (v : Vector3 S) (uc : Variance3 S) (r : S) (j : Nat)
    (vs : List (Option (Vector3 S))) (hidx : 6 * (j : Int) + 5 ≤ INT_MAX) :
    forLoop (fillAxisOBB v uc r j) 0 3 vs
      = writeSeq ((List.range' (6 * j) 6).zip (extremalPoints v uc r)) vs := by
  rw [forLoop_congr _ (fillAxisAt v uc r j) 3 0
    (fun k _ hk => fillAxisOBB_eq_fillAxisAt v uc r j k (by omega) hidx)]
  simp only [forLoop, fillAxisAt, Matrix3.col, Vector3.coeff, Option.some_bind,
    Nat.mul_zero, Nat.add_zero, Nat.mul_one, Nat.zero_add, Nat.reduceAdd, Nat.reduceMul,
    Nat.add_assoc, List.range', extremalPoints, List.zip_cons_cons, List.zip_nil_right, writeSeq]
  cases writeAt vs (6 * j) (v.add (uc.axis.c0.scale (r * uc.sigma.x))) with
  | none => rfl
  | some vs1 =>
    simp only [Option.some_bind]
    cases writeAt vs1 (6 * j + 1) (v.sub (uc.axis.c0.scale (r * uc.sigma.x))) with
    | none => rfl
    | some vs2 =>
      simp only [Option.some_bind]
      cases writeAt vs2 (6 * j + 2) (v.add (uc.axis.c1.scale (r * uc.sigma.y))) with
      | none => rfl
      | some vs3 =>
        simp only [Option.some_bind]
        cases writeAt vs3 (6 * j + 3) (v.sub (uc.axis.c1.scale (r * uc.sigma.y))) with
        | none => rfl
        | some vs4 =>
          simp only [Option.some_bind]
          cases writeAt vs4 (6 * j + 4) (v.add (uc.axis.c2.scale (r * uc.sigma.z))) with
          | none => rfl
          | some vs5 =>
            simp only [Option.some_bind]

theorem pointsOf_length (r : S) (l : List (Vector3 S × Variance3 S)) :
    (pointsOf r l).length = 6 * l.length := by
  induction l with
  | nil => rfl
  | cons vu l ih => simp [pointsOf, extremalPoints, ih]; ring

theorem forLoop_fillVertexOBB_writeSeq (vertices : List (Vector3 S)) (ucs : List (Variance3 S))
    (r : S) (bvnode : BVNode BV) (count start : Nat) (l : List (Vector3 S × Variance3 S))
    (h : gather (ownedAt vertices ucs bvnode) start count = some l)
    (vs : List (Option (Vector3 S))) (hidx : 6 * ((start : Int) + count) ≤ INT_MAX + 1) :
    forLoop (fillVertexOBB vertices ucs r bvnode) start count vs
      = writeSeq ((List.range' (6 * start) (6 * count)).zip (pointsOf r l)) vs := by
  induction count generalizing start l vs with
  | zero =>
    simp only [gather, Option.some.injEq] at h
    subst h
    rfl
  | succ n ih =>
    simp only [gather] at h
    cases ho : ownedAt vertices ucs bvnode start with
    | none => simp [ho] at h
    | some vu =>
      obtain ⟨v, uc⟩ := vu
      obtain ⟨hr, huc, hv⟩ := (ownedAt_eq_some vertices ucs bvnode start v uc).mp ho
      cases hg : gather (ownedAt vertices ucs bvnode) (start + 1) n with
      | none => simp [ho, hg] at h
      | some l2 =>
        simp only [ho, hg, Option.some_bind, Option.map_some', Option.some.injEq] at h
        subst h
        have hsplit : List.range' (6 * start) (6 * (n + 1))
            = List.range' (6 * start) 6 ++ List.range' (6 * (start + 1)) (6 * n) := by
          rw [show 6 * (n + 1) = 6 * n + 6 by ring,
            show 6 * (start + 1) = 6 * start + 1 * 6 by ring]
          exact (List.range'_append (6 * start) 6 (6 * n) 1).symm
        have hzip : (List.range' (6 * start) (6 * (n + 1))).zip (pointsOf r ((v, uc) :: l2))
            = (List.range' (6 * start) 6).zip (extremalPoints v uc r)
              ++ (List.range' (6 * (start + 1)) (6 * n)).zip (pointsOf r l2) := by
          rw [hsplit]
          exact List.zip_append (by simp [extremalPoints])
        rw [hzip, writeSeq_append,
          ← forLoop_fillAxisOBB_writeSeq v uc r start vs (by push_cast at hidx; omega)]
        simp only [forLoop, fillVertexOBB, asInt_of_range hr.1 hr.2, huc, hv, Option.some_bind]
        congr 1
        funext vs1
        exact ih (start + 1) l2 hg vs1 (by push_cast at hidx ⊢; omega)

theorem pointsOf_getElem? (r : S) (l : List (Vector3 S × Variance3 S)) (j : Nat)
    (vu : Vector3 S × Variance3 S) (h : l[j]? = some vu) (t : Nat) (ht : t < 6) :
    (pointsOf r l)[6 * j + t]? = (extremalPoints vu.1 vu.2 r)[t]? := by
  induction l generalizing j with
  | nil => simp at h
  | cons w l ih =>
    cases j with
    | zero =>
      simp only [List.getElem?_cons_zero, Option.some.injEq] at h
      subst h
      simp only [pointsOf, Nat.mul_zero, Nat.zero_add]
      exact List.getElem?_append_left (by simpa [extremalPoints] using ht)
    | succ j =>
      simp only [List.getElem?_cons_succ] at h
      have hlen : (extremalPoints w.1 w.2 r).length ≤ 6 * (j + 1) + t := by
        simp [extremalPoints]; omega
      simp only [pointsOf]
      rw [List.getElem?_append_right hlen]
      have hidx : 6 * (j + 1) + t - (extremalPoints w.1 w.2 r).length = 6 * j + t := by
        simp [extremalPoints]; omega
      rw [hidx]
      exact ih j h

/-- The node the `OBB` overload leaves at index `i`: its bound is `fit` of the
extremal points of the owned vertices, everything else is kept. -/
theorem BVHExpandOBB_node (F : FitBV S BV) (model m1 : BVHModel S BV)
    (ucs : List (Variance3 S)) (r : S) (h : BVHExpandOBB F model ucs r = some m1) (i : Nat)
    (nd : BVNode BV) (hn : model.bvs[i]? = some nd) :
    ∃ l, owned model.vertices ucs nd = some l
      ∧ (0 ≤ nd.num_primitives ∧ nd.num_primitives * 6 ≤ INT_MAX)
      ∧ m1.bvs[i]?
        = some { nd with bv := F.fit (pointsOf r l) (nd.num_primitives * 6) F.init } := by
  rw [BVHExpandOBB_eq] at h
  have hi := (model_frame _ model m1 h).2.2.2 i
  rw [hn, Option.some_bind, rebound, fitNodeOBB_eq] at hi
  by_cases hc : 0 ≤ nd.num_primitives ∧ nd.num_primitives * 6 ≤ INT_MAX
  · rw [if_pos hc] at hi
    cases hl : owned model.vertices ucs nd with
    | none =>
      rw [hl] at hi
      have hlen := (model_frame _ model m1 h).2.1
      have h1 : i < model.bvs.length := (List.getElem?_eq_some_iff.mp hn).1
      have h2 : m1.bvs.length = model.bvs.length := by
        simpa [BVHModel.num_bvs] using hlen
      have h3 : m1.bvs[i]? = none := hi
      rw [List.getElem?_eq_none_iff] at h3
      omega
    | some l =>
      rw [hl] at hi
      exact ⟨l, rfl, hc, hi⟩
  · rw [if_neg hc] at hi
    have hlen := (model_frame _ model m1 h).2.1
    have h1 : i < model.bvs.length := (List.getElem?_eq_some_iff.mp hn).1
    have h2 : m1.bvs.length = model.bvs.length := by
      simpa [BVHModel.num_bvs] using hlen
    have h3 : m1.bvs[i]? = none := hi
    rw [List.getElem?_eq_none_iff] at h3
    omega

theorem fitNodeOBB_isSome (F : FitBV S BV) (vertices : List (Vector3 S))
    (ucs : List (Variance3 S)) (r : S) (nd : BVNode BV) :
    (fitNodeOBB F vertices ucs r nd).isSome = (bufferOBB vertices ucs r nd).isSome := by
  rw [fitNodeOBB_eq, bufferOBB_eq]
  split
  · simp only [Option.isSome_map']
  · rfl

/-- C15: layout of the buffer of the fit-based overloads and its use.  Let `nd`
be node `i` of a tree, with `n` owned vertices.  Whenever the `OBB` overload
has a buffer `buf` for `nd`, the `RSS` overload has the same buffer; it has
exactly `6 * n` points (none when `n = 0`); for every `j < n` and every axis
`k < 3` its entry `6 * j + 2 * k` is `v_j + axis_k * (r * sigma_k)` and its
entry `6 * j + 2 * k + 1` is `v_j - axis_k * (r * sigma_k)`; the loops of both
overloads perform exactly the assignments `vs[i] = buf[i]` for
`i = 0, 1, ..., 6 * n - 1`, one for each cell; the bound computed for the node
is `fit(buf, 6 * n, bv)` of a default-constructed `bv`; the step of the node
loop stores that bound in node `i` and changes nothing else; each overload
returns a tree exactly when every node has a buffer; and in the tree an
overload returns, node `i` is `nd` with its bound replaced by that result of
`fit`. -/
theorem fit_buffer_layout (F : FitBV S BV) (model : BVHModel S BV)
    (ucs : List (Variance3 S)) (r : S) (i : Nat) (nd : BVNode BV) (buf : List (Vector3 S))
    (hi : model.bvs[i]? = some nd)
    (h : bufferOBB model.vertices ucs r nd = some buf) :
    bufferRSS model.vertices ucs r nd = some buf
      ∧ buf.length = 6 * nd.num_primitives.toNat
      ∧ (nd.num_primitives = 0 → buf = [])
      ∧ (∀ j : Nat, (j : Int) < nd.num_primitives →
          ∃ v uc, readAt model.vertices (nd.first_primitive + j) = some v
            ∧ readAt ucs (nd.first_primitive + j) = some uc
            ∧ ∀ k, k < 3 → ∃ a s, uc.axis.col k = some a ∧ uc.sigma.coeff k = some s
                ∧ buf[6 * j + 2 * k]? = some (v.add (a.scale (r * s)))
                ∧ buf[6 * j + 2 * k + 1]? = some (v.sub (a.scale (r * s))))
      ∧ (∀ vs0,
          forLoop (fillVertexOBB model.vertices ucs r nd) 0 nd.num_primitives.toNat vs0
            = writeSeq ((List.range (6 * nd.num_primitives.toNat)).zip buf) vs0
          ∧ forLoop (fillVertexRSS model.vertices ucs r nd) 0 nd.num_primitives.toNat vs0
            = writeSeq ((List.range (6 * nd.num_primitives.toNat)).zip buf) vs0)
      ∧ fitNodeOBB F model.vertices ucs r nd
          = some (F.fit buf (nd.num_primitives * 6) F.init)
      ∧ fitNodeRSS F model.vertices ucs r nd
          = some (F.fit buf (nd.num_primitives * 6) F.init)
      ∧ fitStepOBB F ucs r i model
          = some { model with
              bvs := model.bvs.set i { nd with bv := F.fit buf (nd.num_primitives * 6) F.init } }
      ∧ fitStepRSS F ucs r i model
          = some { model with
              bvs := model.bvs.set i { nd with bv := F.fit buf (nd.num_primitives * 6) F.init } }
      ∧ ((BVHExpandOBB F model ucs r).isSome
          ↔ ∀ nd1 ∈ model.bvs, (bufferOBB model.vertices ucs r nd1).isSome)
      ∧ ((BVHExpandRSS F model ucs r).isSome
          ↔ ∀ nd1 ∈ model.bvs, (bufferRSS model.vertices ucs r nd1).isSome)
      ∧ (∀ m1, BVHExpandOBB F model ucs r = some m1 →
          m1.bvs[i]? = some { nd with bv := F.fit buf (nd.num_primitives * 6) F.init })
      ∧ (∀ m1, BVHExpandRSS F model ucs r = some m1 →
          m1.bvs[i]? = some { nd with bv := F.fit buf (nd.num_primitives * 6) F.init }) := by
  have h1 := h
  rw [bufferOBB_eq] at h1
  by_cases hn : 0 ≤ nd.num_primitives ∧ nd.num_primitives * 6 ≤ INT_MAX
  · have hfit : fitNodeOBB F model.vertices ucs r nd
        = some (F.fit buf (nd.num_primitives * 6) F.init) := by
      unfold fitNodeOBB
      rw [h, asInt_of_range (by unfold INT_MIN; omega) hn.2]
      rfl
    have hstep : fitStepOBB F ucs r i model
        = some { model with
            bvs := model.bvs.set i { nd with bv := F.fit buf (nd.num_primitives * 6) F.init } } := by
      unfold fitStepOBB BVHModel.getBV
      rw [hi, Option.some_bind, hfit, Option.some_bind]
    have hsome : (BVHExpandOBB F model ucs r).isSome
        ↔ ∀ nd1 ∈ model.bvs, (bufferOBB model.vertices ucs r nd1).isSome := by
      rw [BVHExpandOBB_eq, Option.isSome_map', traverse_isSome]
      refine forall₂_congr fun nd1 _ => ?_
      rw [rebound, Option.isSome_map', fitNodeOBB_isSome]
    have hnode : ∀ m1, BVHExpandOBB F model ucs r = some m1 →
        m1.bvs[i]? = some { nd with bv := F.fit buf (nd.num_primitives * 6) F.init } := by
      intro m1 hm
      obtain ⟨l, hl, _, hm1⟩ := BVHExpandOBB_node F model m1 ucs r hm i nd hi
      rw [if_pos hn, hl, Option.map_some', Option.some.injEq] at h1
      rw [hm1, h1]
    rw [if_pos hn] at h1
    cases hl : owned model.vertices ucs nd with
    | none => simp [hl] at h1
    | some l =>
      simp only [hl, Option.map_some', Option.some.injEq] at h1
      subst h1
      have hlen : l.length = nd.num_primitives.toNat := gather_length _ _ _ l hl
      have hwrite : ∀ vs0,
          forLoop (fillVertexOBB model.vertices ucs r nd) 0 nd.num_primitives.toNat vs0
            = writeSeq ((List.range (6 * nd.num_primitives.toNat)).zip (pointsOf r l)) vs0 := by
        intro vs0
        rw [forLoop_fillVertexOBB_writeSeq model.vertices ucs r nd _ 0 l hl vs0
          (by push_cast; omega), List.range_eq_range']
      refine ⟨h, ?_, ?_, ?_, fun vs0 => ⟨hwrite vs0, hwrite vs0⟩, hfit, hfit, hstep, hstep,
        hsome, hsome, hnode, hnode⟩
      · rw [pointsOf_length, hlen]
      · intro hz
        have hl0 : l.length = 0 := by rw [hlen, hz]; rfl
        rw [List.length_eq_zero.mp hl0]
        rfl
      · intro j hj
        have hj1 : j < nd.num_primitives.toNat := by omega
        have hg := gather_getElem? _ _ 0 l hl j hj1
        rw [Nat.zero_add] at hg
        obtain ⟨vu, hvu⟩ := Option.isSome_iff_exists.mp hg.2
        obtain ⟨v, uc⟩ := vu
        obtain ⟨_, huc, hv⟩ := (ownedAt_eq_some model.vertices ucs nd j v uc).mp hvu
        have hj2 : l[j]? = some (v, uc) := by rw [hg.1, hvu]
        refine ⟨v, uc, hv, huc, ?_⟩
        intro k hk
        have e0 := pointsOf_getElem? r l j (v, uc) hj2 (2 * k) (by omega)
        have e1 := pointsOf_getElem? r l j (v, uc) hj2 (2 * k + 1) (by omega)
        rw [← Nat.add_assoc] at e1
        interval_cases k
        · exact ⟨uc.axis.c0, uc.sigma.x, rfl, rfl, e0, e1⟩
        · exact ⟨uc.axis.c1, uc.sigma.y, rfl, rfl, e0, e1⟩
        · exact ⟨uc.axis.c2, uc.sigma.z, rfl, rfl, e0, e1⟩
  · simp [hn] at h1

end Layout

/-! ## The six points of a vertex -/

section Points

variable {S BV : Type} [LinearOrderedCommRing S]

/-- The node the generic overload leaves at index `i`: its bound is the fold of
point inclusion over the extremal points of the owned vertices, everything
else is kept. -/
theorem BVHExpand_node_eq (K : PointBV S BV) (model m1 : BVHModel S BV)
    (ucs : List (Variance3 S)) (r : S) (h : BVHExpand K model ucs r = some m1) (i : Nat)
    (nd : BVNode BV) (hn : model.bvs[i]? = some nd) :
    ∃ l, owned model.vertices ucs nd = some l
      ∧ m1.bvs[i]? = some { nd with bv := (pointsOf r l).foldl K.incl K.init } := by
  rw [BVHExpand_eq] at h
  have hi := (model_frame _ model m1 h).2.2.2 i
  rw [hn, Option.some_bind, rebound, expandNode_eq] at hi
  cases hl : owned model.vertices ucs nd with
  | none =>
    rw [hl] at hi
    have hlen := (model_frame _ model m1 h).2.1
    have h1 : i < model.bvs.length := (List.getElem?_eq_some_iff.mp hn).1
    have h2 : m1.bvs.length = model.bvs.length := by
      simpa [BVHModel.num_bvs] using hlen
    have h3 : m1.bvs[i]? = none := hi
    rw [List.getElem?_eq_none_iff] at h3
    omega
  | some l =>
    rw [hl] at hi
    exact ⟨l, rfl, hi⟩

/-- The entry of an owned vertex in the list of owned pairs, and the place of
its six points in the point sequence of the node. -/
theorem owned_points (vertices : List (Vector3 S)) (ucs : List (Variance3 S)) (r : S)
    (nd : BVNode BV) (j : Nat) (v : Vector3 S) (u : Variance3 S)
    (hj : (j : Int) < nd.num_primitives)
    (hv : readAt vertices (nd.first_primitive + j) = some v)
    (hu : readAt ucs (nd.first_primitive + j) = some u)
    (l : List (Vector3 S × Variance3 S)) (hl : owned vertices ucs nd = some l) :
    l[j]? = some (v, u) ∧ (pointsOf r l).length = 6 * nd.num_primitives.toNat
      ∧ ∀ t, t < 6 → (pointsOf r l)[6 * j + t]? = (extremalPoints v u r)[t]? := by
  have hg := gather_getElem? _ _ 0 l hl j (by omega)
  rw [Nat.zero_add] at hg
  obtain ⟨vu, hvu⟩ := Option.isSome_iff_exists.mp hg.2
  obtain ⟨v1, u1⟩ := vu
  obtain ⟨_, hu1, hv1⟩ := (ownedAt_eq_some vertices ucs nd j v1 u1).mp hvu
  rw [hv] at hv1
  rw [hu] at hu1
  cases hv1
  cases hu1
  have hlj : l[j]? = some (v, u) := by rw [hg.1, hvu]
  refine ⟨hlj, ?_, fun t ht => pointsOf_getElem? r l j (v, u) hlj t ht⟩
  rw [pointsOf_length, gather_length _ _ _ l hl]

/-- C1: the points `BVHExpand` generates for a vertex are exactly six.  Let `nd`
be node `i` of a tree and let the vertex `v` and the uncertainty `u` be read
at the owned index `first_primitive + j`.  The six points are
`v + axis_k * (r * sigma_k)` and `v - axis_k * (r * sigma_k)`, `k = 0, 1, 2`.
The body of the vertex loop of the generic overload includes exactly these six
points, in this order, into the running bound; the body of the vertex loop of
the `OBB` and of the `RSS` overload writes exactly these six points, in this
order, into the buffer cells `6 * j, ..., 6 * j + 5` and leaves the rest of the
buffer alone.  The point sequence of the node has six points for each owned
vertex, those of `v` at the positions `6 * j, ..., 6 * j + 5`; the generic
overload folds that sequence into the default bound, and the `OBB` and `RSS`
overloads hand the same sequence to `fit`; the tree an overload returns has
the resulting bound at node `i`. -/
theorem extremal_points_exactly_six (K : PointBV S BV) (F : FitBV S BV)
    (model : BVHModel S BV) (ucs : List (Variance3 S)) (r : S) (i : Nat) (nd : BVNode BV)
    (j : Nat) (v : Vector3 S) (u : Variance3 S)
    (hnd : model.bvs[i]? = some nd)
    (hj : (j : Int) < nd.num_primitives)
    (hint : nd.first_primitive + j ≤ INT_MAX)
    (hv : readAt model.vertices (nd.first_primitive + j) = some v)
    (hu : readAt ucs (nd.first_primitive + j) = some u) :
    extremalPoints v u r
        = [v.add (u.axis.c0.scale (r * u.sigma.x)), v.sub (u.axis.c0.scale (r * u.sigma.x)),
           v.add (u.axis.c1.scale (r * u.sigma.y)), v.sub (u.axis.c1.scale (r * u.sigma.y)),
           v.add (u.axis.c2.scale (r * u.sigma.z)), v.sub (u.axis.c2.scale (r * u.sigma.z))]
      ∧ (extremalPoints v u r).length = 6
      ∧ (∀ bv, expandVertex K model.vertices ucs r nd j bv
          = some ((extremalPoints v u r).foldl K.incl bv))
      ∧ (∀ (pre post : List (Option (Vector3 S))) (c0 c1 c2 c3 c4 c5 : Option (Vector3 S)),
          pre.length = 6 * j → 6 * (j : Int) + 5 ≤ INT_MAX →
          fillVertexOBB model.vertices ucs r nd j
              (pre ++ c0 :: c1 :: c2 :: c3 :: c4 :: c5 :: post)
            = some (pre ++ ((extremalPoints v u r).map some ++ post))
          ∧ fillVertexRSS model.vertices ucs r nd j
              (pre ++ c0 :: c1 :: c2 :: c3 :: c4 :: c5 :: post)
            = some (pre ++ ((extremalPoints v u r).map some ++ post)))
      ∧ expandNode K model.vertices ucs r nd
          = (owned model.vertices ucs nd).map (fun l => (pointsOf r l).foldl K.incl K.init)
      ∧ (0 ≤ nd.num_primitives * 6 → nd.num_primitives * 6 ≤ INT_MAX →
          bufferOBB model.vertices ucs r nd = (owned model.vertices ucs nd).map (pointsOf r)
          ∧ bufferRSS model.vertices ucs r nd = (owned model.vertices ucs nd).map (pointsOf r))
      ∧ (∀ l, owned model.vertices ucs nd = some l →
          l[j]? = some (v, u) ∧ (pointsOf r l).length = 6 * nd.num_primitives.toNat
            ∧ ∀ t, t < 6 → (pointsOf r l)[6 * j + t]? = (extremalPoints v u r)[t]?)
      ∧ (∀ m1, BVHExpand K model ucs r = some m1 →
          ∃ l, owned model.vertices ucs nd = some l
            ∧ m1.bvs[i]? = some { nd with bv := (pointsOf r l).foldl K.incl K.init })
      ∧ (∀ m1, BVHExpandOBB F model ucs r = some m1 →
          ∃ l, owned model.vertices ucs nd = some l
            ∧ m1.bvs[i]?
              = some { nd with bv := F.fit (pointsOf r l) (nd.num_primitives * 6) F.init })
      ∧ (∀ m1, BVHExpandRSS F model ucs r = some m1 →
          ∃ l, owned model.vertices ucs nd = some l
            ∧ m1.bvs[i]?
              = some { nd with bv := F.fit (pointsOf r l) (nd.num_primitives * 6) F.init }) := by
  have hr : INT_MIN ≤ nd.first_primitive + j ∧ nd.first_primitive + j ≤ INT_MAX := by
    refine ⟨?_, hint⟩
    have h0 : 0 ≤ nd.first_primitive + j := by
      by_contra hneg
      unfold readAt at hv
      rw [if_neg hneg] at hv
      cases hv
    unfold INT_MIN
    omega
  have ho : ownedAt model.vertices ucs nd j = some (v, u) :=
    (ownedAt_eq_some _ _ _ _ _ _).mpr ⟨hr, hu, hv⟩
  have hfill : ∀ (pre post : List (Option (Vector3 S))) (c0 c1 c2 c3 c4 c5 : Option (Vector3 S)),
      pre.length = 6 * j → 6 * (j : Int) + 5 ≤ INT_MAX →
      fillVertexOBB model.vertices ucs r nd j
          (pre ++ c0 :: c1 :: c2 :: c3 :: c4 :: c5 :: post)
        = some (pre ++ ((extremalPoints v u r).map some ++ post)) := by
    intro pre post c0 c1 c2 c3 c4 c5 hpre hidx
    rw [fillVertexOBB_eq _ _ _ _ _ _ _ _ _ _ _ _ _ hpre hidx, ho]
    rfl
  have hobb : ∀ m1, BVHExpandOBB F model ucs r = some m1 →
      ∃ l, owned model.vertices ucs nd = some l
        ∧ m1.bvs[i]?
          = some { nd with bv := F.fit (pointsOf r l) (nd.num_primitives * 6) F.init } := by
    intro m1 hm
    obtain ⟨l, hl, _, hm1⟩ := BVHExpandOBB_node F model m1 ucs r hm i nd hnd
    exact ⟨l, hl, hm1⟩
  have hbuf : 0 ≤ nd.num_primitives * 6 → nd.num_primitives * 6 ≤ INT_MAX →
      bufferOBB model.vertices ucs r nd = (owned model.vertices ucs nd).map (pointsOf r) := by
    intro h0 h1
    rw [bufferOBB_eq, if_pos ⟨by omega, h1⟩]
  refine ⟨rfl, rfl, ?_, fun pre post c0 c1 c2 c3 c4 c5 hpre hidx =>
      ⟨hfill pre post c0 c1 c2 c3 c4 c5 hpre hidx, hfill pre post c0 c1 c2 c3 c4 c5 hpre hidx⟩,
    expandNode_eq K _ ucs r nd, fun h0 h1 => ⟨hbuf h0 h1, hbuf h0 h1⟩,
    fun l hl => owned_points _ _ r nd j v u hj hv hu l hl,
    fun m1 hm => BVHExpand_node_eq K model m1 ucs r hm i nd hnd, hobb, hobb⟩
  intro bv
  rw [expandVertex_eq, ho]
  rfl

end Points

/-! ## Order of the nodes -/

section NodeOrder

variable {S BV : Type}

theorem forLoop_eq_forEach {σ : Type} (body : Nat → σ → Option σ) (count start : Nat) (s : σ) :
    forLoop body start count s = forEach body (List.range' start count) s := by
  induction count generalizing start s with
  | zero => rfl
  | succ n ih =>
    simp only [forLoop, List.range'_succ, forEach]
    cases body start s with
    | none => rfl
    | some s1 => exact ih (start + 1) s1

theorem forEach_perm {σ : Type} (body : Nat → σ → Option σ)
    (hcomm : ∀ i j s, (body i s).bind (body j) = (body j s).bind (body i))
    (l1 l2 : List Nat) (h : l1.Perm l2) (s : σ) : forEach body l1 s = forEach body l2 s := by
  induction h generalizing s with
  | nil => rfl
  | cons i _ ih =>
    simp only [forEach]
    cases body i s with
    | none => rfl
    | some s1 => exact ih s1
  | swap i j l =>
    simp only [forEach]
    have h := hcomm j i s
    cases hi : body i s with
    | none =>
      cases hj : body j s with
      | none => rfl
      | some s2 =>
        rw [hi, hj] at h
        simp only [Option.some_bind, Option.none_bind] at h ⊢
        rw [h]; rfl
    | some s1 =>
      cases hj : body j s with
      | none =>
        rw [hi, hj] at h
        simp only [Option.some_bind, Option.none_bind] at h ⊢
        rw [← h]; rfl
      | some s2 =>
        rw [hi, hj] at h
        simp only [Option.some_bind] at h ⊢
        rw [h]
  | trans _ _ ih1 ih2 => exact (ih1 s).trans (ih2 s)

theorem nodeStep_comm (g : List (Vector3 S) → BVNode BV → Option BV)
    (step : Nat → BVHModel S BV → Option (BVHModel S BV))
    (hstep : ∀ i model, step i model = (model.getBV i).bind fun bvnode =>
      (g model.vertices bvnode).bind fun bv =>
        some { model with bvs := model.bvs.set i { bvnode with bv := bv } })
    (i j : Nat) (model : BVHModel S BV) :
    (step i model).bind (step j) = (step j model).bind (step i) := by
  by_cases hij : i = j
  · subst hij; rfl
  · have hji : j ≠ i := fun h => hij h.symm
    simp only [hstep, BVHModel.getBV]
    cases hi : model.bvs[i]? with
    | none =>
      cases hj : model.bvs[j]? with
      | none => rfl
      | some nj =>
        cases hgj : g model.vertices nj with
        | none => simp [hgj]
        | some bj => simp [List.getElem?_set_ne hji, hi, hgj]
    | some ni =>
      cases hgi : g model.vertices ni with
      | none =>
        cases hj : model.bvs[j]? with
        | none => simp [hgi]
        | some nj =>
          cases hgj : g model.vertices nj with
          | none => simp [hgi, hgj]
          | some bj => simp [List.getElem?_set_ne hji, hi, hgi, hgj]
      | some bi =>
        cases hj : model.bvs[j]? with
        | none => simp [List.getElem?_set_ne hij, hj, hgi]
        | some nj =>
          cases hgj : g model.vertices nj with
          | none => simp [List.getElem?_set_ne hij, hj, hgi, hgj]
          | some bj =>
            simp only [List.getElem?_set_ne hij, List.getElem?_set_ne hji, hi, hj, hgi, hgj,
              Option.some_bind]
            rw [List.set_comm _ _ _ hij]

theorem forEach_nodes_perm (g : List (Vector3 S) → BVNode BV → Option BV)
    (step : Nat → BVHModel S BV → Option (BVHModel S BV))
    (hstep : ∀ i model, step i model = (model.getBV i).bind fun bvnode =>
      (g model.vertices bvnode).bind fun bv =>
        some { model with bvs := model.bvs.set i { bvnode with bv := bv } })
    (model : BVHModel S BV) (order : List Nat)
    (h : order.Perm (List.range model.num_bvs.toNat)) :
    forEach step order model = forLoop step 0 model.num_bvs.toNat model := by
  rw [forLoop_eq_forEach, ← List.range_eq_range']
  exact forEach_perm step (nodeStep_comm g step hstep) _ _ h model

end NodeOrder

section NodeOrderClaim

variable {S BV : Type} [LinearOrderedCommRing S]

/-- C17: node processing order is unconstrained.  Running the loop body of an
overload once for every node index, in any order `order` that is a
rearrangement of `0, ..., num_bvs - 1`, gives the same result as the ascending
loop of the source, whether or not owned ranges overlap (generic, `OBB` and
`RSS` overloads). -/
theorem node_order_unconstrained (K : PointBV S BV) (F : FitBV S BV) (model : BVHModel S BV)
    (ucs : List (Variance3 S)) (r : S) (order : List Nat)
    (h : order.Perm (List.range model.num_bvs.toNat)) :
    forEach (expandStep K ucs r) order model = BVHExpand K model ucs r
      ∧ forEach (fitStepOBB F ucs r) order model = BVHExpandOBB F model ucs r
      ∧ forEach (fitStepRSS F ucs r) order model = BVHExpandRSS F model ucs r :=
  ⟨forEach_nodes_perm (fun vertices => expandNode K vertices ucs r) _ (fun _ _ => rfl) model order h,
    forEach_nodes_perm (fun vertices => fitNodeOBB F vertices ucs r) _ (fun _ _ => rfl) model
      order h,
    forEach_nodes_perm (fun vertices => fitNodeRSS F vertices ucs r) _ (fun _ _ => rfl) model
      order h⟩

end NodeOrderClaim

/-! ## Closed form of the axis-aligned result -/

section ClosedForm

variable {S : Type} [LinearOrderedCommRing S]

theorem min_six_from (lo v t0 t1 t2 : S) :
    min (min (min (min (min (min lo (v + t0)) (v - t0)) (v + t1)) (v - t1)) (v + t2)) (v - t2)
      = min lo (v - max (max |t0| |t1|) |t2|) := by
  apply eq_of_forall_le_iff
  intro c
  have hM : c ≤ v - max (max |t0| |t1|) |t2| ↔ max (max |t0| |t1|) |t2| ≤ v - c :=
    ⟨fun h => by linarith, fun h => by linarith⟩
  simp only [le_min_iff, hM, max_le_iff, abs_le]
  constructor
  · rintro ⟨⟨⟨⟨⟨⟨h, a0⟩, b0⟩, a1⟩, b1⟩, a2⟩, b2⟩
    exact ⟨h, ⟨⟨by linarith, by linarith⟩, ⟨by linarith, by linarith⟩⟩,
      ⟨by linarith, by linarith⟩⟩
  · rintro ⟨h, ⟨⟨a0, b0⟩, ⟨a1, b1⟩⟩, ⟨a2, b2⟩⟩
    exact ⟨⟨⟨⟨⟨⟨h, by linarith⟩, by linarith⟩, by linarith⟩, by linarith⟩, by linarith⟩,
      by linarith⟩

theorem max_six_from (hi v t0 t1 t2 : S) :
    max (max (max (max (max (max hi (v + t0)) (v - t0)) (v + t1)) (v - t1)) (v + t2)) (v - t2)
      = max hi (v + max (max |t0| |t1|) |t2|) := by
  apply eq_of_forall_ge_iff
  intro c
  have hM : v + max (max |t0| |t1|) |t2| ≤ c ↔ max (max |t0| |t1|) |t2| ≤ c - v :=
    ⟨fun h => by linarith, fun h => by linarith⟩
  simp only [max_le_iff, hM, abs_le]
  constructor
  · rintro ⟨⟨⟨⟨⟨⟨h, a0⟩, b0⟩, a1⟩, b1⟩, a2⟩, b2⟩
    exact ⟨h, ⟨⟨by linarith, by linarith⟩, ⟨by linarith, by linarith⟩⟩,
      ⟨by linarith, by linarith⟩⟩
  · rintro ⟨h, ⟨⟨a0, b0⟩, ⟨a1, b1⟩⟩, ⟨a2, b2⟩⟩
    exact ⟨⟨⟨⟨⟨⟨h, by linarith⟩, by linarith⟩, by linarith⟩, by linarith⟩, by linarith⟩,
      by linarith⟩

theorem min_six (v t0 t1 t2 : S) :
    min (min (min (min (min (v + t0) (v - t0)) (v + t1)) (v - t1)) (v + t2)) (v - t2)
      = v - max (max |t0| |t1|) |t2| := by
  have h := min_six_from (v + t0) v t0 t1 t2
  rw [min_self] at h
  rw [h]
  apply min_eq_right
  have : |t0| ≤ max (max |t0| |t1|) |t2| := le_max_of_le_left (le_max_left _ _)
  linarith [le_abs_self t0, neg_abs_le t0]

theorem max_six (v t0 t1 t2 : S) :
    max (max (max (max (max (v + t0) (v - t0)) (v + t1)) (v - t1)) (v + t2)) (v - t2)
      = v + max (max |t0| |t1|) |t2| := by
  have h := max_six_from (v + t0) v t0 t1 t2
  rw [max_self] at h
  rw [h]
  apply max_eq_right
  have : |t0| ≤ max (max |t0| |t1|) |t2| := le_max_of_le_left (le_max_left _ _)
  linarith [le_abs_self t0, neg_abs_le t0]

theorem abs_reach (a r s : S) : |r * s * a| = |a * (r * s)| := by
  rw [mul_comm]

theorem AABB.foldl_extremal_box (lo hi v : Vector3 S) (u : Variance3 S) (r : S) :
    (extremalPoints v u r).foldl AABB.incl (AABB.box lo hi)
      = AABB.box (lo.cwiseMin (lowerOf r (v, u))) (hi.cwiseMax (upperOf r (v, u))) := by
  simp only [extremalPoints, List.foldl_cons, List.foldl_nil, AABB.incl, Vector3.cwiseMin,
    Vector3.cwiseMax, Vector3.add, Vector3.sub, Vector3.scale, lowerOf, upperOf, reach,
    abs_reach, min_six_from, max_six_from]

theorem AABB.foldl_extremal_empty (v : Vector3 S) (u : Variance3 S) (r : S) :
    (extremalPoints v u r).foldl AABB.incl AABB.empty
      = AABB.box (lowerOf r (v, u)) (upperOf r (v, u)) := by
  simp only [extremalPoints, List.foldl_cons, List.foldl_nil, AABB.incl, Vector3.cwiseMin,
    Vector3.cwiseMax, Vector3.add, Vector3.sub, Vector3.scale, lowerOf, upperOf, reach,
    abs_reach, min_six, max_six]

theorem AABB.foldl_pointsOf_box (r : S) (l : List (Vector3 S × Variance3 S))
    (lo hi : Vector3 S) :
    (pointsOf r l).foldl AABB.incl (AABB.box lo hi)
      = AABB.box (minLower r lo l) (maxUpper r hi l) := by
  induction l generalizing lo hi with
  | nil => rfl
  | cons vu l ih =>
    simp only [pointsOf, List.foldl_append, AABB.foldl_extremal_box, ih, minLower, maxUpper,
      List.foldl_cons]

/-- C19: closed form of the generic axis-aligned result.  Whenever the generic
overload returns on a tree of axis-aligned boxes, for every node with at least
one owned vertex and every confidence `r` of either sign, the bound written to
the node is the box whose minimum is, on each coordinate, the least over the
owned vertices of `v_j - max_k |r * sigma_j,k * axis_j,k|` and whose maximum is
the greatest over the owned vertices of `v_j + max_k |r * sigma_j,k * axis_j,k|`. -/
theorem closed_form_of_box (model m1 : BVHModel S (AABB S)) (ucs : List (Variance3 S))
    (r : S) (h : BVHExpand aabbKind model ucs r = some m1) (i : Nat) (nd nd1 : BVNode (AABB S))
    (hn : model.bvs[i]? = some nd) (hn1 : m1.bvs[i]? = some nd1)
    (hpos : 0 < nd.num_primitives) :
    ∃ vu rest, owned model.vertices ucs nd = some (vu :: rest)
      ∧ nd1.bv = AABB.box (minLower r (lowerOf r vu) rest) (maxUpper r (upperOf r vu) rest) := by
  obtain ⟨l, hl, hbv, _⟩ := BVHExpand_node aabbKind model m1 ucs r h i nd nd1 hn hn1
  have hlen := gather_length _ _ _ l hl
  cases l with
  | nil =>
    simp only [List.length_nil] at hlen
    omega
  | cons vu rest =>
    refine ⟨vu, rest, hl, ?_⟩
    rw [hbv]
    simp only [pointsOf, List.foldl_append, aabbKind, AABB.foldl_extremal_empty,
      AABB.foldl_pointsOf_box]

end ClosedForm

/-! ## Default confidence -/

section Defaults

variable {S BV : Type} [LinearOrderedCommRing S]

/-- C11, counterexample: a call of the generic overload on the sample tree that
omits the confidence is ill-formed, because the declaration of the generic
overload has no default argument, while the call with confidence `1` is
well-formed and returns a tree; the two calls do not give the same result. -/
theorem generic_call_without_confidence :
    callBVHExpand aabbKind sampleModel sampleUcs none = none
      ∧ callBVHExpand aabbKind sampleModel sampleUcs (some 1)
        = some (some (sampleWith (AABB.box ⟨-1, -1, -3⟩ ⟨4, 3, 1⟩)
            (AABB.box ⟨-1, -1, -1⟩ ⟨1, 1, 1⟩) (AABB.box ⟨4, -1, -3⟩ ⟨4, 3, -1⟩)))
      ∧ callBVHExpand aabbKind sampleModel sampleUcs none
        ≠ callBVHExpand aabbKind sampleModel sampleUcs (some 1) := by
  have h1 : callBVHExpand aabbKind sampleModel sampleUcs (some 1)
      = some (some (sampleWith (AABB.box ⟨-1, -1, -3⟩ ⟨4, 3, 1⟩)
          (AABB.box ⟨-1, -1, -1⟩ ⟨1, 1, 1⟩) (AABB.box ⟨4, -1, -3⟩ ⟨4, 3, -1⟩))) := by
    show some (BVHExpand aabbKind sampleModel sampleUcs 1) = _
    rw [sample_expand_one]
  refine ⟨rfl, h1, ?_⟩
  rw [h1]
  exact fun h => Option.noConfusion h

/-- C11, amended: for the `OBB` and the `RSS` entry point a call that omits the
confidence gives the same result as the call with confidence `1`; the generic
entry point declares no default, so a call that omits the confidence is
ill-formed, and a call that passes `r` runs the overload with `r`. -/
theorem default_confidence (K : PointBV S BV) (F : FitBV S BV) (model : BVHModel S BV)
    (ucs : List (Variance3 S)) (r : S) :
    (callBVHExpandOBB F model ucs none = callBVHExpandOBB F model ucs (some 1)
        ∧ callBVHExpandOBB F model ucs none = some (BVHExpandOBB F model ucs 1))
      ∧ (callBVHExpandRSS F model ucs none = callBVHExpandRSS F model ucs (some 1)
        ∧ callBVHExpandRSS F model ucs none = some (BVHExpandRSS F model ucs 1))
      ∧ callBVHExpand K model ucs none = none
      ∧ callBVHExpand K model ucs (some r) = some (BVHExpand K model ucs r) :=
  ⟨⟨rfl, rfl⟩, ⟨rfl, rfl⟩, rfl, rfl⟩

end Defaults

/-! ## The further claims at sample inputs -/

section MoreWitnesses

theorem sample_expand_minus_two :
    BVHExpand aabbKind sampleModel sampleUcs (-2)
      = some (sampleWith (AABB.box ⟨-2, -3, -4⟩ ⟨4, 5, 2⟩) (AABB.box ⟨-2, -2, -2⟩ ⟨2, 2, 2⟩)
          (AABB.box ⟨4, -3, -4⟩ ⟨4, 5, 0⟩)) := by decide

theorem sample_inBounds :
    ∀ nd ∈ sampleModel.bvs, nd.inBounds sampleModel.vertices.length sampleUcs.length := by
  decide

theorem sample_buffer :
    bufferOBB sampleVertices sampleUcs 1 (⟨1, 1, AABB.empty⟩ : BVNode (AABB ℤ))
      = some [⟨4, 3, -2⟩, ⟨4, -1, -2⟩, ⟨4, 1, -2⟩, ⟨4, 1, -2⟩, ⟨4, 1, -1⟩, ⟨4, 1, -3⟩] := by
  decide

theorem sample_order : [2, 0, 1].Perm (List.range sampleModel.num_bvs.toNat) := by decide

/-- C1 at a sample input: the second vertex of the first node of the sample
tree, confidence `1`. -/
theorem extremal_points_exactly_six_witness :
    sampleModel.bvs[0]? = some ⟨0, 2, AABB.empty⟩
      ∧ ((1 : Nat) : Int) < (⟨0, 2, AABB.empty⟩ : BVNode (AABB ℤ)).num_primitives
      ∧ (⟨0, 2, AABB.empty⟩ : BVNode (AABB ℤ)).first_primitive + ((1 : Nat) : Int) ≤ INT_MAX
      ∧ readAt sampleModel.vertices
          ((⟨0, 2, AABB.empty⟩ : BVNode (AABB ℤ)).first_primitive + ((1 : Nat) : Int))
        = some ⟨4, 1, -2⟩
      ∧ readAt sampleUcs
          ((⟨0, 2, AABB.empty⟩ : BVNode (AABB ℤ)).first_primitive + ((1 : Nat) : Int))
        = some ⟨⟨⟨0, 1, 0⟩, ⟨1, 0, 0⟩, ⟨0, 0, 1⟩⟩, ⟨2, 0, 1⟩⟩
      ∧ expandVertex aabbKind sampleModel.vertices sampleUcs 1 ⟨0, 2, AABB.empty⟩ 1
          AABB.empty
        = some ((extremalPoints (⟨4, 1, -2⟩ : Vector3 ℤ)
            ⟨⟨⟨0, 1, 0⟩, ⟨1, 0, 0⟩, ⟨0, 0, 1⟩⟩, ⟨2, 0, 1⟩⟩ 1).foldl aabbKind.incl AABB.empty) :=
  ⟨rfl, by decide, by decide, rfl, rfl,
    (extremal_points_exactly_six aabbKind sampleFit sampleModel sampleUcs 1 0
      ⟨0, 2, AABB.empty⟩ 1 ⟨4, 1, -2⟩ ⟨⟨⟨0, 1, 0⟩, ⟨1, 0, 0⟩, ⟨0, 0, 1⟩⟩, ⟨2, 0, 1⟩⟩
      rfl (by decide) (by decide) rfl rfl).2.2.1 AABB.empty⟩

theorem sample_indexRange :
    ∀ nd ∈ sampleModel.bvs, nd.first_primitive + nd.num_primitives ≤ INT_MAX + 1 := by
  decide

theorem sample_bufferSize : ∀ nd ∈ sampleModel.bvs, nd.num_primitives * 6 ≤ INT_MAX := by
  decide

/-- C13 at a sample input: the sample tree satisfies the precondition, and its
ranges and buffer sizes are values of `int`. -/
theorem index_safety_witness :
    (∀ nd ∈ sampleModel.bvs, nd.inBounds sampleModel.vertices.length sampleUcs.length)
      ∧ (∀ nd ∈ sampleModel.bvs, nd.first_primitive + nd.num_primitives ≤ INT_MAX + 1)
      ∧ (BVHExpand aabbKind sampleModel sampleUcs 2).isSome
      ∧ (BVHExpandOBB sampleFit sampleModel sampleUcs 2).isSome
      ∧ (BVHExpandRSS sampleFit sampleModel sampleUcs 2).isSome :=
  ⟨sample_inBounds, sample_indexRange,
    (index_safety aabbKind sampleFit sampleModel sampleUcs 2 sample_inBounds
      sample_indexRange).2.1,
    ((index_safety aabbKind sampleFit sampleModel sampleUcs 2 sample_inBounds
      sample_indexRange).2.2 sample_bufferSize).2⟩

/-- C15 at a sample input: the third node of the sample tree, confidence `1`. -/
theorem fit_buffer_layout_witness :
    sampleModel.bvs[2]? = some ⟨1, 1, AABB.empty⟩
      ∧ bufferOBB sampleModel.vertices sampleUcs 1 (⟨1, 1, AABB.empty⟩ : BVNode (AABB ℤ))
        = some [⟨4, 3, -2⟩, ⟨4, -1, -2⟩, ⟨4, 1, -2⟩, ⟨4, 1, -2⟩, ⟨4, 1, -1⟩, ⟨4, 1, -3⟩]
      ∧ bufferRSS sampleModel.vertices sampleUcs 1 (⟨1, 1, AABB.empty⟩ : BVNode (AABB ℤ))
        = some [⟨4, 3, -2⟩, ⟨4, -1, -2⟩, ⟨4, 1, -2⟩, ⟨4, 1, -2⟩, ⟨4, 1, -1⟩, ⟨4, 1, -3⟩]
      ∧ ([⟨4, 3, -2⟩, ⟨4, -1, -2⟩, ⟨4, 1, -2⟩, ⟨4, 1, -2⟩, ⟨4, 1, -1⟩, ⟨4, 1, -3⟩] :
          List (Vector3 ℤ)).length = 6 * (1 : Int).toNat
      ∧ fitStepOBB sampleFit sampleUcs 1 2 sampleModel
        = some { sampleModel with
            bvs := sampleModel.bvs.set 2 ⟨1, 1, sampleFit.fit
              [⟨4, 3, -2⟩, ⟨4, -1, -2⟩, ⟨4, 1, -2⟩, ⟨4, 1, -2⟩, ⟨4, 1, -1⟩, ⟨4, 1, -3⟩]
              ((1 : Int) * 6) sampleFit.init⟩ } :=
  ⟨rfl, sample_buffer,
    (fit_buffer_layout sampleFit sampleModel sampleUcs 1 2 ⟨1, 1, AABB.empty⟩ _ rfl
      sample_buffer).1,
    (fit_buffer_layout sampleFit sampleModel sampleUcs 1 2 ⟨1, 1, AABB.empty⟩ _ rfl
      sample_buffer).2.1,
    (fit_buffer_layout sampleFit sampleModel sampleUcs 1 2 ⟨1, 1, AABB.empty⟩ _ rfl
      sample_buffer).2.2.2.2.2.2.2.1⟩

/-- C16 at a sample input: the first node of the sample tree, confidence `2`,
with axis-aligned boxes, whose point inclusion is order-insensitive. -/
theorem order_independent_within_node_witness :
    (∀ (b : AABB ℤ) p q, aabbKind.incl (aabbKind.incl b p) q = aabbKind.incl (aabbKind.incl b q) p)
      ∧ ∃ l, owned sampleModel.vertices sampleUcs (⟨0, 2, AABB.empty⟩ : BVNode (AABB ℤ)) = some l
          ∧ (pointsOf 2 l).length = 6 * (2 : Int).toNat
          ∧ ∀ ps : List (Vector3 ℤ), ps.Perm (pointsOf 2 l) →
              AABB.box ⟨-2, -3, -4⟩ ⟨4, 5, 2⟩ = ps.foldl aabbKind.incl aabbKind.init :=
  ⟨AABB.incl_comm,
    order_independent_within_node aabbKind AABB.incl_comm sampleModel _ sampleUcs 2
      sample_expand_two 0 ⟨0, 2, AABB.empty⟩ ⟨0, 2, AABB.box ⟨-2, -3, -4⟩ ⟨4, 5, 2⟩⟩ rfl rfl⟩

/-- C17 at a sample input: the nodes of the sample tree in the order `2, 0, 1`. -/
theorem node_order_unconstrained_witness :
    [2, 0, 1].Perm (List.range sampleModel.num_bvs.toNat)
      ∧ forEach (expandStep aabbKind sampleUcs 2) [2, 0, 1] sampleModel
        = BVHExpand aabbKind sampleModel sampleUcs 2
      ∧ forEach (fitStepOBB sampleFit sampleUcs 2) [2, 0, 1] sampleModel
        = BVHExpandOBB sampleFit sampleModel sampleUcs 2
      ∧ forEach (fitStepRSS sampleFit sampleUcs 2) [2, 0, 1] sampleModel
        = BVHExpandRSS sampleFit sampleModel sampleUcs 2 :=
  ⟨sample_order,
    node_order_unconstrained aabbKind sampleFit sampleModel sampleUcs 2 [2, 0, 1] sample_order⟩

/-- C18 at a sample input: the third node of the sample tree, confidence `1`. -/
theorem shared_point_sequence_witness :
    bufferOBB sampleVertices sampleUcs 1 (⟨1, 1, AABB.empty⟩ : BVNode (AABB ℤ))
        = some [⟨4, 3, -2⟩, ⟨4, -1, -2⟩, ⟨4, 1, -2⟩, ⟨4, 1, -2⟩, ⟨4, 1, -1⟩, ⟨4, 1, -3⟩]
      ∧ expandNode aabbKind sampleVertices sampleUcs 1 ⟨1, 1, AABB.empty⟩
        = some (([⟨4, 3, -2⟩, ⟨4, -1, -2⟩, ⟨4, 1, -2⟩, ⟨4, 1, -2⟩, ⟨4, 1, -1⟩, ⟨4, 1, -3⟩] :
            List (Vector3 ℤ)).foldl aabbKind.incl aabbKind.init) :=
  ⟨sample_buffer,
    ((shared_point_sequence aabbKind sampleFit sampleVertices sampleUcs 1
      ⟨1, 1, AABB.empty⟩).2.1 _ sample_buffer).2.1⟩

/-- C19 at a sample input: the first node of the sample tree, which owns both
vertices, with the negative confidence `-2`. -/
theorem closed_form_of_box_witness :
    (0 : Int) < (⟨0, 2, AABB.empty⟩ : BVNode (AABB ℤ)).num_primitives
      ∧ ∃ vu rest, owned sampleModel.vertices sampleUcs (⟨0, 2, AABB.empty⟩ : BVNode (AABB ℤ))
            = some (vu :: rest)
          ∧ AABB.box ⟨-2, -3, -4⟩ ⟨4, 5, 2⟩
            = AABB.box (minLower (-2) (lowerOf (-2) vu) rest) (maxUpper (-2) (upperOf (-2) vu) rest) :=
  ⟨by decide,
    closed_form_of_box sampleModel _ sampleUcs (-2) sample_expand_minus_two 0
      ⟨0, 2, AABB.empty⟩ ⟨0, 2, AABB.box ⟨-2, -3, -4⟩ ⟨4, 5, 2⟩⟩ rfl rfl (by decide)⟩

end MoreWitnesses

end fcl
